import Mathlib

/-!
# Verification of the PDF utility engine (`pdf_utility_gui.py`)

Shallow embedding of the document assembly/disassembly engine of
`src/pdf_utility_gui.py`:

* `natural_sort_key` (lines 84-92): tokenization of a filename into
  alternating text / maximal-digit runs, digits compared numerically and
  text case-insensitively;
* `split_pdf_to_pdfs` (lines 94-133);
* `split_pdf_to_images` (lines 135-211);
* `merge_pdfs` (lines 214-353).

Modelling conventions:

* Paths and strings are lists of Unicode code points (`List Nat`); Python
  compares strings by code point, so list order on `Nat` matches Python
  string comparison.  `pathOf` injects Lean string literals.
* The filesystem is an explicit value (`FS`): an association list from
  paths to file contents plus an association list from directory paths to
  their children's base filenames.  File contents are modelled by what the
  collaborator libraries (PyPDF2 / Pillow) can observe of them (`Entry`).
* Callbacks are modelled by traces: each engine function returns the list
  of `progress_callback` arguments it issued, in order, and enough status
  information for the claims (created-file lines, skip reasons, error
  classes).  Writing to disk is modelled by returning the written artifact
  (path, page list); `os.makedirs` and the final `open(...,"wb")` are
  assumed to succeed, which is the happy path of the claims considered.
* Pages are opaque (`Nat` identities): the engine only re-homes pages, so
  a page is identified by where it came from.
* Scope: ASCII case folding and ASCII digits (Python's `str.lower` /
  `[0-9]` regex agree with this on the ASCII range; all claims are about
  ASCII file names).
-/

namespace PdfUtil

/-- A path / filename, as its list of Unicode code points.
Python compares strings code-point-wise, which is `List Nat` order. -/
abbrev Path := List Nat

/-- Code points of a Lean string literal. -/
def pathOf (s : String) : Path := s.data.map Char.toNat

/-- The ASCII-digit test used by the regex `[0-9]` in
`re.split('([0-9]+)', ...)` (line 92). -/
def isDigitCode (c : Nat) : Bool := decide (48 ≤ c ∧ c ≤ 57)

/-- ASCII case folding: the fragment of Python's `str.lower()` relevant to
the claims (maps A-Z to a-z, fixes everything else). -/
def lowerCode (c : Nat) : Nat := if 65 ≤ c ∧ c ≤ 90 then c + 32 else c

/-- `int(text)` applied to a run of ASCII digit code points (line 91). -/
def digitsVal (l : Path) : Nat := l.foldl (fun a c => 10 * a + (c - 48)) 0

/-- One step of grouping a string into maximal same-kind runs:
prepend character `c` to a run decomposition (merging with the first run
when it has the same digit-kind, as a maximal run must). -/
def runStep (c : Nat) : List (Bool × Path) → List (Bool × Path)
  | [] => [(isDigitCode c, [c])]
  | (b, run) :: rest =>
    if isDigitCode c = b then (b, c :: run) :: rest
    else (isDigitCode c, [c]) :: (b, run) :: rest

/-- Decompose a string into its maximal runs of digits (`true`) and
non-digits (`false`), in order.  This is the run structure that
`re.split('([0-9]+)', s)` exposes. -/
def groupRuns : Path → List (Bool × Path)
  | [] => []
  | c :: cs => runStep c (groupRuns cs)

/-- One token of a natural-sort key: Python's key (line 91-92) is a list
whose elements are `int`s (for digit runs) and lowered `str`s (for the
text between them). -/
inductive Tok where
  | text (s : Path)
  | num (v : Nat)
deriving DecidableEq, Repr

/-- Tokens of a run decomposition: digit runs become their numeric value,
text runs are case-folded. -/
def runToks (rs : List (Bool × Path)) : List Tok :=
  rs.map (fun r => if r.1 then Tok.num (digitsVal r.2) else Tok.text (r.2.map lowerCode))

/-- The key built by `natural_sort_key` from a basename (line 91-92):
`re.split('([0-9]+)', s)` yields the maximal digit runs with the
(possibly empty) text pieces around them — an empty text piece appears
exactly at the start when the string starts with a digit (or is empty)
and at the end when it ends with a digit; interior text pieces are the
nonempty non-digit runs. -/
def tokenize (l : Path) : List Tok :=
  let rs := groupRuns l
  (if rs.head?.map Prod.fst = some false then [] else [Tok.text []])
    ++ runToks rs
    ++ (if (rs.getLast?).map Prod.fst = some true then [Tok.text []] else [])

/-- Python `<` on two values of identical structure: lexicographic list
order with numeric order on code points (Python string comparison). -/
def valLt : Path → Path → Bool
  | [], [] => false
  | [], _ :: _ => true
  | _ :: _, [] => false
  | a :: as, b :: bs => if a < b then true else if b < a then false else valLt as bs

/-- Python `<` on one key token against another.  Keys produced by
`tokenize` alternate text/number starting with text, so two keys only
ever compare tokens of equal kind at equal positions; the cross-kind
cases (which would raise `TypeError` in Python) are fixed arbitrarily but
asymmetrically and are never reached between two `tokenize` results. -/
def tokLt : Tok → Tok → Bool
  | .num a, .num b => decide (a < b)
  | .text a, .text b => valLt a b
  | .num _, .text _ => true
  | .text _, .num _ => false

/-- Python `<` on two keys (lexicographic list comparison). -/
def keyLt : List Tok → List Tok → Bool
  | [], [] => false
  | [], _ :: _ => true
  | _ :: _, [] => false
  | a :: as, b :: bs => if tokLt a b then true else if tokLt b a then false else keyLt as bs

/-- `os.path.basename`: everything after the last path separator. -/
def basenameC (l : Path) : Path := l.foldl (fun acc c => if c = 47 then [] else acc ++ [c]) []

/-- `natural_sort_key` (lines 84-92) on a path given as code points:
the key of the basename. -/
def sortKeyP (p : Path) : List Tok := tokenize (basenameC p)

/-- `natural_sort_key` (lines 84-92) on a string. -/
def natural_sort_key (s : String) : List Tok := sortKeyP (pathOf s)

/-- The (total pre)order `sorted(..., key=natural_sort_key)` sorts by:
`a ≤ b` iff the key of `b` is not smaller than the key of `a`. -/
def natLe (a b : Path) : Prop := keyLt (sortKeyP b) (sortKeyP a) = false

instance : DecidableRel natLe := fun _ _ => instDecidableEqBool _ _

/-- Python `sorted(paths, key=natural_sort_key)`: a stable ascending sort.
Insertion sort with `natLe` is stable and ascending, hence computes the
same list as CPython's (stable) sort. -/
def sortPaths (l : List Path) : List Path := l.insertionSort natLe

/-! ## Filesystem and collaborator model -/

/-- A Pillow image color model; the modes relevant to the engine's
normalization logic (`'RGBA'`, `'P'` at line 269, `'RGBA'` at line 193)
together with the other common modes they are compared against. -/
inductive ImgMode where
  | RGB | RGBA | L | LA | P | PA | CMYK
deriving DecidableEq, Repr

/-- Whether a mode carries an alpha channel. -/
def ImgMode.hasAlpha : ImgMode → Bool
  | .RGBA | .LA | .PA => true
  | _ => false

/-- Whether a mode is palette-based. -/
def ImgMode.isPaletted : ImgMode → Bool
  | .P | .PA => true
  | _ => false

/-- What the collaborator libraries can observe of a file's bytes:

* `pdfFile encrypted emptyPwOk pages` — a document `PyPDF2.PdfReader` can
  open; `encrypted` is `reader.is_encrypted`, `emptyPwOk` whether
  `reader.decrypt("")` succeeds, `pages` its page identities in order;
* `corruptPdf` — bytes on which `PdfReader` raises `PdfReadError`;
* `imageFile mode content` — an image `PIL.Image.open` can decode, with
  its color `mode`; `content` identifies the single page it becomes when
  encoded as a one-page document;
* `badImage` — bytes on which `Image.open` raises
  `UnidentifiedImageError`;
* `otherFile` — any other bytes. -/
inductive Entry where
  | pdfFile (encrypted : Bool) (emptyPwOk : Bool) (pages : List Nat)
  | corruptPdf
  | imageFile (mode : ImgMode) (content : Nat)
  | badImage
  | otherFile
deriving DecidableEq, Repr

/-- The filesystem a job runs against: existing files with their contents
and existing directories with the base filenames of their (file)
children.  A snapshot — the claims never depend on the job's own writes
becoming visible to itself. -/
structure FS where
  files : List (Path × Entry)
  dirs : List (Path × List Path)
deriving DecidableEq, Repr

/-- Content of an existing file, if any. -/
def FS.lookupFile (fs : FS) (p : Path) : Option Entry :=
  (fs.files.find? (fun e => e.1 = p)).map (fun e => e.2)

/-- `os.path.isfile`. -/
def FS.isFile (fs : FS) (p : Path) : Bool := (fs.lookupFile p).isSome

/-- `os.listdir`, as far as it succeeds (the model's directories are
always readable; `OSError` on `listdir` is not exercised by any claim). -/
def FS.lookupDir (fs : FS) (p : Path) : Option (List Path) :=
  (fs.dirs.find? (fun e => e.1 = p)).map (fun e => e.2)

/-- `os.path.isdir`. -/
def FS.isDir (fs : FS) (p : Path) : Bool := (fs.lookupDir p).isSome

/-- `os.path.join(dir, name)` (the engine never passes names that make
`join` drop the separator). -/
def joinP (d fn : Path) : Path := d ++ [47] ++ fn

/-! ## Path dissection helpers used by the source -/

/-- `filepath.lower().split('.')[-1]` (line 266): the piece of the
case-folded full path after its last dot (the whole lowered path when it
has no dot). -/
def extOf (p : Path) : Path :=
  (p.map lowerCode).foldl (fun acc c => if c = 46 then [] else acc ++ [c]) []

/-- Index of the last `'.'` in a list of code points, if any. -/
def lastDotIdx : Path → Option Nat
  | [] => none
  | c :: cs =>
    match lastDotIdx cs with
    | some i => some (i + 1)
    | none => if c = 46 then some 0 else none

/-- `os.path.splitext(name)[0]` on a basename (line 110): strip the final
dot-extension, except that a name whose characters before the last dot
are all dots (a leading-dot name like `.bashrc` or `...`) is kept
whole. -/
def stemOf (l : Path) : Path :=
  match lastDotIdx l with
  | none => l
  | some i => if (l.take i).all (fun c => c = 46) then l else l.take i

/-- `fn.lower().endswith((".pdf", ".jpg", ".jpeg", ".png"))`
(lines 229 and 236). -/
def hasMergeExt (fn : Path) : Bool :=
  let lf := fn.map lowerCode
  decide (pathOf ".pdf" <:+ lf) || decide (pathOf ".jpg" <:+ lf)
    || decide (pathOf ".jpeg" <:+ lf) || decide (pathOf ".png" <:+ lf)

/-- Little-endian base-10 digits with explicit fuel (so that the kernel
can evaluate it; agrees with `Nat.digits 10` whenever `n ≤ fuel`, see
`decDigits_eq_digits`). -/
def decDigits : Nat → Nat → List Nat
  | 0, _ => []
  | _, 0 => []
  | fuel + 1, n + 1 => (n + 1) % 10 :: decDigits fuel ((n + 1) / 10)

/-- Decimal digit code points of a number: the code points that
`f"{n}"` interpolates (line 118/192). -/
def natStrCodes (n : Nat) : Path :=
  if n = 0 then [48] else ((decDigits n n).reverse.map (fun d => d + 48))

/-! ## Merge engine (`merge_pdfs`, lines 214-353) -/

/-- Why an item was skipped (the per-item `except`/`continue` paths of
the merge loop, lines 262-331).  `wrongPassword` is the
`status` branch at line 298; it is unreachable, because evaluating the
comparison `pdf_to_append_reader.decrypt("") == PyPDF2.PasswortStates.WRONG_PASSWORD`
(line 297) raises `AttributeError` — `PyPDF2` has no attribute
`PasswortStates` — which the handler at line 301 turns into a skip. -/
inductive SkipReason where
  | fileNotFound
  | unreadableImage
  | encodeError
  | conversionFailure
  | unsupportedType
  | corruptDocument
  | decryptError
  | wrongPassword
deriving DecidableEq, Repr

/-- Outcome of one iteration of the merge loop (lines 262-332) on one
resolved path:

* `pages` — `some l` when the item was appended (contributing pages `l`,
  i.e. `successful_merges += 1`), `none` when it was skipped
  (`files_skipped += 1`);
* `reason` — the skip reason, `none` when included;
* `tick` — whether the iteration reaches the `progress_callback(i+1, ...)`
  at line 332: the `continue` statements inside the `try` block skip it,
  while the `except` handlers at lines 323-331 fall through to it;
* `dec` — how many times `reader.decrypt("")` was called (line 297). -/
structure ItemRes where
  pages : Option (List Nat)
  reason : Option SkipReason
  tick : Bool
  dec : Nat
deriving DecidableEq, Repr

/-- Pillow's single-page PDF encoder (`image.save(..., format='PDF')`,
line 273), as the spec describes it: it rejects the alpha-bearing color
models (the conversion at line 270 exists because "downstream
single-page encoding does not support those modes"). -/
def pdfEncodable (m : ImgMode) : Bool := !m.hasAlpha

/-- The color normalization of the merge loop (lines 269-270):
`if image.mode == 'RGBA' or image.mode == 'P': image = image.convert('RGB')`. -/
def normalizeImageMode (m : ImgMode) : ImgMode :=
  if m = .RGBA ∨ m = .P then .RGB else m

/-- One iteration of the merge loop (lines 262-332) on path `p`.

* Image extensions (line 267): decode with `Image.open`; normalize
  `RGBA`/`P` to `RGB` (line 269-270); encode as one-page PDF in memory
  (line 273); validate the result has at least one page (lines 277-280,
  the `if not img_pdf_reader.pages: raise` branch — dead in the model
  since a successful encode yields exactly one page, kept to mirror the
  source); append.  Decode failure (`UnidentifiedImageError`, missing
  file) and encode failure (`image.save` raising) reach the outer
  handlers (lines 323-331) and still tick progress; validation failure
  `continue`s (line 285) and does not.
* `pdf` extension (line 289): open with `PdfReader`; `PdfReadError`
  skips via `continue` (line 311-314); an encrypted reader always skips
  (lines 293-304) because the comparison at line 297 raises
  `AttributeError` (`PyPDF2.PasswortStates` does not exist) after the
  single `decrypt("")` call — even when the empty password would have
  decrypted the file; otherwise append all pages (line 307).
* Any other extension: `Skipped(UnsupportedFileType)` via `continue`
  (lines 319-322). -/
def processItem (fs : FS) (p : Path) : ItemRes :=
  let ext := extOf p
  if ext = pathOf "jpg" ∨ ext = pathOf "jpeg" ∨ ext = pathOf "png" then
    match fs.lookupFile p with
    | none => ⟨none, some .fileNotFound, true, 0⟩
    | some (.imageFile m c) =>
      if pdfEncodable (normalizeImageMode m) then
        if ([c] : List Nat) = [] then ⟨none, some .conversionFailure, false, 0⟩
        else ⟨some [c], none, true, 0⟩
      else ⟨none, some .encodeError, true, 0⟩
    | some _ => ⟨none, some .unreadableImage, true, 0⟩
  else if ext = pathOf "pdf" then
    match fs.lookupFile p with
    | none => ⟨none, some .fileNotFound, true, 0⟩
    | some (.pdfFile enc _ pgs) =>
      if enc then ⟨none, some .decryptError, false, 1⟩
      else ⟨some pgs, none, true, 0⟩
    | some _ => ⟨none, some .corruptDocument, false, 0⟩
  else ⟨none, some .unsupportedType, false, 0⟩

/-- Accumulated effect of the merge loop over a list of items. -/
structure Acc where
  inc : Nat
  skp : Nat
  pages : List Nat
  prog : List (Nat × Nat)
  dec : Nat
deriving DecidableEq, Repr

/-- The merge loop (lines 262-332) over the resolved files, starting at
0-based index `i` with `total = len(actual_files_to_process)`:
accumulates included/skipped counters, the pages appended to `writer`,
and the progress trace (the `progress_callback(i + 1, total_files)`
calls that are reached). -/
def runItems (fs : FS) (total : Nat) : Nat → List Path → Acc
  | _, [] => ⟨0, 0, [], [], 0⟩
  | i, p :: rest =>
    let r := processItem fs p
    let a := runItems fs total (i + 1) rest
    ⟨(if r.pages.isSome then 1 else 0) + a.inc,
     (if r.pages.isSome then 0 else 1) + a.skp,
     r.pages.getD [] ++ a.pages,
     (if r.tick then [(i + 1, total)] else []) ++ a.prog,
     r.dec + a.dec⟩

/-- The job-level failure classes of `merge_pdfs` (each is one of the
`return False` sites; `allSkipped` and `noValidPages` are the two
distinct messages of lines 335-338). -/
inductive MergeErr where
  | inputNotFound
  | unsupportedSingleFile
  | invalidInputType
  | noFilesFound
  | allSkipped
  | noValidPages
deriving DecidableEq, Repr

/-- Terminal result of a merge job: success flag (the function's return
value), the counters `successful_merges` / `files_skipped`, the written
output (path and page list; `none` when no file was written at
`output_path`), the full `progress_callback` trace, the failure class,
and the total number of `decrypt("")` calls.  The final
`writer.write` (line 343-344) is modelled as succeeding. -/
structure MergeRes where
  ok : Bool
  included : Nat
  skipped : Nat
  written : Option (Path × List Nat)
  progress : List (Nat × Nat)
  err : Option MergeErr
  dec : Nat
deriving DecidableEq, Repr

/-- Lines 251-349 of `merge_pdfs`: everything after fileset resolution.
An empty resolution fails at line 251-254 (before any progress call);
otherwise `progress_callback(0, total_files)` (line 258), the loop, and
the final accounting of lines 334-349: zero included items or an empty
page accumulation fails — with the "all selected files were skipped"
message when every file was skipped, else the "no valid pages" message —
and only otherwise is the output written. -/
def mergeFiles (fs : FS) (outPath : Path) (L : List Path) : MergeRes :=
  if L = [] then ⟨false, 0, 0, none, [], some .noFilesFound, 0⟩
  else
    let n := L.length
    let a := runItems fs n 0 L
    if a.inc = 0 ∨ a.pages = [] then
      ⟨false, a.inc, a.skp, none, (0, n) :: a.prog,
       some (if a.skp = n then .allSkipped else .noValidPages), a.dec⟩
    else ⟨true, a.inc, a.skp, some (outPath, a.pages), (0, n) :: a.prog, none, a.dec⟩

/-- The two shapes of `input_sources_list_or_path`: a Python list of
paths, or a single string (file or directory). -/
inductive MergeInput where
  | files (l : List Path)
  | single (p : Path)

instance {ε α : Type} [DecidableEq ε] [DecidableEq α] : DecidableEq (Except ε α) := fun a b =>
  match a, b with
  | .ok a, .ok b => if h : a = b then .isTrue (by rw [h]) else .isFalse (by simp [h])
  | .error a, .error b => if h : a = b then .isTrue (by rw [h]) else .isFalse (by simp [h])
  | .ok _, .error _ => .isFalse (by simp)
  | .error _, .ok _ => .isFalse (by simp)

/-- Fileset resolution (lines 218-249):

* a list keeps the existing files — with no extension filter — sorted
  naturally (lines 219-220);
* a directory keeps children whose lowered name ends in
  `.pdf/.jpg/.jpeg/.png`, joined to the directory, sorted naturally
  (lines 227-230);
* a single existing file is accepted as `[file]` when its lowered name
  ends in one of those extensions and otherwise fails the whole job
  (lines 235-241); a path that is neither directory nor file fails
  (lines 242-245). -/
def resolveMerge (fs : FS) : MergeInput → Except MergeErr (List Path)
  | .files l => .ok (sortPaths (l.filter (fun f => fs.isFile f)))
  | .single p =>
    match fs.lookupDir p with
    | some children =>
      .ok (sortPaths ((children.filter hasMergeExt).map (joinP p)))
    | none =>
      if fs.isFile p then
        if hasMergeExt p then .ok [p] else .error .unsupportedSingleFile
      else .error .inputNotFound

/-- `merge_pdfs(input_sources_list_or_path, output_path, ...)`
(lines 214-353): resolve, then merge.  Resolution failures return
`False` before any item is processed (empty progress trace). -/
def merge_pdfs (fs : FS) (input : MergeInput) (outPath : Path) : MergeRes :=
  match resolveMerge fs input with
  | .error e => ⟨false, 0, 0, none, [], some e, 0⟩
  | .ok L => mergeFiles fs outPath L

/-! ## Split engine (`split_pdf_to_pdfs`, lines 94-133) -/

/-- Job-level failures of the split paths. -/
inductive SplitErr where
  | inputNotFound
  | corruptDocument
  | externalToolFailure
  | unsupportedFormat
  | encodeError
  | genericError
deriving DecidableEq, Repr

/-- The output filename of page number `i` (1-based):
`f"{base_filename}_page_{i}{ext}"` joined under `output_dir`
(line 118 / line 192). -/
def splitName (outDir stem : Path) (i : Nat) (ext : Path) : Path :=
  joinP outDir (stem ++ pathOf "_page_" ++ natStrCodes i ++ ext)

/-- The writer loop of `split_pdf_to_pdfs` (lines 115-122), starting at
0-based page index `i`: for each page, one written single-page file. -/
def splitPages (outDir stem : Path) : Nat → List Nat → List (Path × List Nat)
  | _, [] => []
  | i, pg :: rest =>
    (splitName outDir stem (i + 1) (pathOf ".pdf"), [pg]) :: splitPages outDir stem (i + 1) rest

/-- Terminal result of a split-to-PDFs job: the function's return value,
the written files in order (path and contained pages), the
`progress_callback` trace, and the `status_callback` lines naming each
created file (`f"Created: {os.path.basename(output_filename)}"`,
line 121). -/
structure SplitRes where
  ok : Bool
  written : List (Path × List Nat)
  progress : List (Nat × Nat)
  createdLines : List Path
  err : Option SplitErr
deriving DecidableEq, Repr

/-- `split_pdf_to_pdfs(input_path, output_dir, ...)` (lines 94-133).

A missing input fails at line 97-100.  The output directory is created
when absent (lines 101-108); the model's `os.makedirs` succeeds.
`PdfReader` on corrupt bytes (or non-PDF bytes) raises `PdfReadError`
(caught at line 126) before any progress call; on an encrypted document
`len(reader.pages)` raises (`FileNotDecryptedError`, caught by the
generic handler at line 130), also before any progress call.  Otherwise:
`progress_callback(0, num_pages)` (line 113), then per page `i` a
single-page document written to `<base>_page_<i+1>.pdf`, a status line
naming it, and `progress_callback(i + 1, num_pages)` (lines 115-122). -/
def split_pdf_to_pdfs (fs : FS) (inPath outDir : Path) : SplitRes :=
  if ¬ fs.isFile inPath then ⟨false, [], [], [], some .inputNotFound⟩
  else
    match fs.lookupFile inPath with
    | some (.pdfFile false _ pgs) =>
      let stem := stemOf (basenameC inPath)
      let P := pgs.length
      let w := splitPages outDir stem 0 pgs
      ⟨true, w, (0, P) :: (List.range P).map (fun i => (i + 1, P)),
       w.map (fun e => basenameC e.1), none⟩
    | some (.pdfFile true _ _) => ⟨false, [], [], [], some .genericError⟩
    | some _ => ⟨false, [], [], [], some .corruptDocument⟩
    | none => ⟨false, [], [], [], some .inputNotFound⟩

/-! ## Split-to-images engine (`split_pdf_to_images`, lines 135-211) -/

/-- The alpha flattening of the image-save loop (lines 193-194):
`if img_format_lower == 'jpg' and image.mode == 'RGBA':
image = image.convert('RGB')`. -/
def flattenForSave (fmtLower : Path) (m : ImgMode) : ImgMode :=
  if fmtLower = pathOf "jpg" ∧ m = .RGBA then .RGB else m

/-- Pillow's ability to encode mode `m` in the given output format
(collaborator model): JPEG writes `L`, `RGB` and `CMYK`; PNG writes
everything here except `CMYK`.  `image.save` raises on the rest, which
aborts the whole job (generic handler, lines 207-211). -/
def canSave (fmtLower : Path) (m : ImgMode) : Bool :=
  if fmtLower = pathOf "jpg" then m = .L || m = .RGB || m = .CMYK
  else !(m = .CMYK)

/-- The image-save loop (lines 191-197), starting at 0-based index `i`:
returns whether it ran to completion, the saved images (path and the
mode they were encoded from, after flattening), and its progress
trace.  A failing `image.save` aborts the loop (and the job) at that
point. -/
def saveImages (fmtLower outDir stem : Path) (total : Nat) :
    Nat → List (Nat × ImgMode) → Bool × List (Path × ImgMode) × List (Nat × Nat)
  | _, [] => (true, [], [])
  | i, (_pg, m) :: rest =>
    let m2 := flattenForSave fmtLower m
    if canSave fmtLower m2 then
      let t := saveImages fmtLower outDir stem total (i + 1) rest
      (t.1, (splitName outDir stem (i + 1) (46 :: fmtLower), m2) :: t.2.1,
       (i + 1, total) :: t.2.2)
    else (false, [], [])

/-- An item is valid when its processing appends pages. -/
def validItem (fs : FS) (p : Path) : Bool := (processItem fs p).pages.isSome

theorem runItems_inc (fs : FS) (t : Nat) :
    ∀ (i : Nat) (L : List Path),
      (runItems fs t i L).inc = (L.filter (fun p => validItem fs p)).length := by
  intro i L
  induction L generalizing i with
  | nil => rfl
  | cons p rest ih =>
    simp only [runItems, ih, List.filter_cons, validItem]
    cases h : (processItem fs p).pages.isSome <;> (simp [h]; try omega)

theorem runItems_skp (fs : FS) (t : Nat) :
    ∀ (i : Nat) (L : List Path),
      (runItems fs t i L).skp = (L.filter (fun p => !validItem fs p)).length := by
  intro i L
  induction L generalizing i with
  | nil => rfl
  | cons p rest ih =>
    simp only [runItems, ih, List.filter_cons, validItem]
    cases h : (processItem fs p).pages.isSome <;> (simp [h]; try omega)

theorem runItems_inc_add_skp (fs : FS) (t i : Nat) (L : List Path) :
    (runItems fs t i L).inc + (runItems fs t i L).skp = L.length := by
  induction L generalizing i with
  | nil => rfl
  | cons p rest ih =>
    simp only [runItems]
    have := ih (i + 1)
    cases h : (processItem fs p).pages.isSome <;> simp [h] <;> omega

theorem runItems_pages (fs : FS) (t : Nat) :
    ∀ (i : Nat) (L : List Path),
      (runItems fs t i L).pages
        = (L.filterMap (fun p => (processItem fs p).pages)).flatten := by
  intro i L
  induction L generalizing i with
  | nil => rfl
  | cons p rest ih =>
    simp only [runItems, ih, List.filterMap_cons]
    cases h : (processItem fs p).pages with
    | none => simp [h]
    | some l => simp [h]

theorem runItems_dec (fs : FS) (t : Nat) :
    ∀ (i : Nat) (L : List Path),
      (runItems fs t i L).dec = (L.map (fun p => (processItem fs p).dec)).sum := by
  intro i L
  induction L generalizing i with
  | nil => rfl
  | cons p rest ih => simp [runItems, ih]

/-- `mergeFiles` on a nonempty resolution, failing branch (lines 334-340). -/
theorem mergeFiles_eq_fail (fs : FS) (out : Path) (L : List Path) (hL : L ≠ [])
    (hc : (runItems fs L.length 0 L).inc = 0 ∨ (runItems fs L.length 0 L).pages = []) :
    mergeFiles fs out L
      = ⟨false, (runItems fs L.length 0 L).inc, (runItems fs L.length 0 L).skp, none,
         (0, L.length) :: (runItems fs L.length 0 L).prog,
         some (if (runItems fs L.length 0 L).skp = L.length then .allSkipped else .noValidPages),
         (runItems fs L.length 0 L).dec⟩ := by
  simp only [mergeFiles, if_neg hL, if_pos hc]

/-- `mergeFiles` on a nonempty resolution, success branch (lines 342-349). -/
theorem mergeFiles_eq_ok (fs : FS) (out : Path) (L : List Path) (hL : L ≠ [])
    (hc : ¬((runItems fs L.length 0 L).inc = 0 ∨ (runItems fs L.length 0 L).pages = [])) :
    mergeFiles fs out L
      = ⟨true, (runItems fs L.length 0 L).inc, (runItems fs L.length 0 L).skp,
         some (out, (runItems fs L.length 0 L).pages),
         (0, L.length) :: (runItems fs L.length 0 L).prog, none,
         (runItems fs L.length 0 L).dec⟩ := by
  simp only [mergeFiles, if_neg hL, if_neg hc]

/-! ## Claim C1 — fault isolation in the merge loop -/

/-- The `.pdf` extensions as `extOf` sees them never collide with the
image extensions. -/
theorem processItem_pdf (fs : FS) (p : Path) (hext : extOf p = pathOf "pdf") :
    processItem fs p
      = match fs.lookupFile p with
        | none => ⟨none, some .fileNotFound, true, 0⟩
        | some (.pdfFile enc _ pgs) =>
          if enc then ⟨none, some .decryptError, false, 1⟩
          else ⟨some pgs, none, true, 0⟩
        | some _ => ⟨none, some .corruptDocument, false, 0⟩ := by
  have h2 : ¬(pathOf "pdf" = pathOf "jpg" ∨ pathOf "pdf" = pathOf "jpeg"
      ∨ pathOf "pdf" = pathOf "png") := by decide
  simp [processItem, hext, h2]

/-- Claim C1 (amended): in a merge over a resolved item list whose valid
items contribute at least one page, corrupted/unreadable documents are
marked skipped while the job succeeds; `itemsIncluded` counts the valid
items, `itemsSkipped` the failed ones, and the output is exactly the
concatenation of the valid items' pages in list order.  (The claim's
original hypothesis — at least one valid item — is not enough: see
`merge_fault_isolation_cex`.) -/
theorem merge_fault_isolation (fs : FS) (out : Path) (L : List Path)
    (hpages : (L.filterMap (fun p => (processItem fs p).pages)).flatten ≠ []) :
    (mergeFiles fs out L).ok = true ∧
    (mergeFiles fs out L).included = (L.filter (fun p => validItem fs p)).length ∧
    (mergeFiles fs out L).skipped = (L.filter (fun p => !validItem fs p)).length ∧
    (mergeFiles fs out L).written
      = some (out, (L.filterMap (fun p => (processItem fs p).pages)).flatten) ∧
    (∀ p ∈ L, fs.lookupFile p = some .corruptPdf → extOf p = pathOf "pdf" →
      validItem fs p = false ∧ (processItem fs p).reason = some .corruptDocument) := by
  have hL : L ≠ [] := by
    intro h; subst h; simp at hpages
  have hpg := runItems_pages fs L.length 0 L
  have hcond : ¬((runItems fs L.length 0 L).inc = 0 ∨ (runItems fs L.length 0 L).pages = []) := by
    rintro (h0 | h0)
    · rw [runItems_inc] at h0
      have hnil := List.length_eq_zero.mp h0
      have hnone : ∀ p ∈ L, (processItem fs p).pages = none := by
        intro p hp
        have := List.filter_eq_nil_iff.mp hnil p hp
        simpa [validItem, Option.not_isSome_iff_eq_none] using this
      exact hpages (by rw [List.filterMap_eq_nil_iff.mpr hnone]; rfl)
    · rw [hpg] at h0; exact hpages h0
  have hcorrupt : ∀ p ∈ L, fs.lookupFile p = some .corruptPdf → extOf p = pathOf "pdf" →
      validItem fs p = false ∧ (processItem fs p).reason = some .corruptDocument := by
    intro p _ hlook hext
    rw [validItem, processItem_pdf fs p hext, hlook]
    exact ⟨rfl, rfl⟩
  rw [mergeFiles_eq_ok fs out L hL hcond]
  refine ⟨rfl, ?_, ?_, ?_, hcorrupt⟩
  · exact runItems_inc fs L.length 0 L
  · exact runItems_skp fs L.length 0 L
  · rw [hpg]

/-- The original claim C1 is false as stated: a resolved input with one
valid item (a readable zero-page document, `a.pdf`) and one corrupted
item (`b.pdf`) is processed with `itemsIncluded == 1`, yet the job fails
(`writer.pages` is empty at line 334) and writes no output. -/
def fsC1cex : FS :=
  ⟨[(pathOf "a.pdf", .pdfFile false true []), (pathOf "b.pdf", .corruptPdf)], []⟩

theorem merge_fault_isolation_cex :
    (mergeFiles fsC1cex (pathOf "out.pdf") [pathOf "a.pdf", pathOf "b.pdf"]).included = 1 ∧
    validItem fsC1cex (pathOf "a.pdf") = true ∧
    (mergeFiles fsC1cex (pathOf "out.pdf") [pathOf "a.pdf", pathOf "b.pdf"]).ok = false ∧
    (mergeFiles fsC1cex (pathOf "out.pdf") [pathOf "a.pdf", pathOf "b.pdf"]).written = none := by
  decide

/-- The spec's own fault-isolation scenario: four resolved, naturally
sorted items of which item 3 is corrupted; merge succeeds with 3
included, 1 skipped, and the valid pages in order. -/
def fsC1w : FS :=
  ⟨[(pathOf "a1.pdf", .pdfFile false true [1, 2]),
    (pathOf "a2.jpg", .imageFile .RGBA 9),
    (pathOf "a3.pdf", .corruptPdf),
    (pathOf "a4.pdf", .pdfFile false true [4])], []⟩

theorem merge_fault_isolation_witness :
    (mergeFiles fsC1w (pathOf "m.pdf")
        [pathOf "a1.pdf", pathOf "a2.jpg", pathOf "a3.pdf", pathOf "a4.pdf"]).ok = true ∧
    (mergeFiles fsC1w (pathOf "m.pdf")
        [pathOf "a1.pdf", pathOf "a2.jpg", pathOf "a3.pdf", pathOf "a4.pdf"]).included = 3 ∧
    (mergeFiles fsC1w (pathOf "m.pdf")
        [pathOf "a1.pdf", pathOf "a2.jpg", pathOf "a3.pdf", pathOf "a4.pdf"]).skipped = 1 ∧
    (mergeFiles fsC1w (pathOf "m.pdf")
        [pathOf "a1.pdf", pathOf "a2.jpg", pathOf "a3.pdf", pathOf "a4.pdf"]).written
      = some (pathOf "m.pdf", [1, 2, 9, 4]) := by
  have h := merge_fault_isolation fsC1w (pathOf "m.pdf")
    [pathOf "a1.pdf", pathOf "a2.jpg", pathOf "a3.pdf", pathOf "a4.pdf"] (by decide)
  exact ⟨h.1, h.2.1.trans (by decide), h.2.2.1.trans (by decide), h.2.2.2.1.trans (by decide)⟩

/-! ## Claim C7 — zero inclusions fail the job with a distinguished message -/

/-- Claim C7: when a merge job that processed items includes zero of
them, it fails, writes nothing, and reports the all-skipped message
(line 336); when items were included but contributed zero pages, it
fails, writes nothing, and reports the no-valid-pages message
(line 338). -/
theorem merge_zero_included_fails (fs : FS) (out : Path) (L : List Path) (hL : L ≠ []) :
    ((mergeFiles fs out L).included = 0 →
      (mergeFiles fs out L).ok = false ∧ (mergeFiles fs out L).written = none ∧
      (mergeFiles fs out L).err = some .allSkipped) ∧
    ((mergeFiles fs out L).included ≠ 0 →
      (L.filterMap (fun p => (processItem fs p).pages)).flatten = [] →
      (mergeFiles fs out L).ok = false ∧ (mergeFiles fs out L).written = none ∧
      (mergeFiles fs out L).err = some .noValidPages) := by
  have hsum := runItems_inc_add_skp fs L.length 0 L
  have hpg := runItems_pages fs L.length 0 L
  have hproj : (mergeFiles fs out L).included = (runItems fs L.length 0 L).inc := by
    by_cases hc : (runItems fs L.length 0 L).inc = 0 ∨ (runItems fs L.length 0 L).pages = []
    · rw [mergeFiles_eq_fail fs out L hL hc]
    · rw [mergeFiles_eq_ok fs out L hL hc]
  constructor
  · intro h0
    have hinc : (runItems fs L.length 0 L).inc = 0 := by rw [← hproj]; exact h0
    have hskp : (runItems fs L.length 0 L).skp = L.length := by omega
    rw [mergeFiles_eq_fail fs out L hL (.inl hinc)]
    refine ⟨rfl, rfl, ?_⟩
    rw [if_pos hskp]
  · intro hne h0
    have hinc : (runItems fs L.length 0 L).inc ≠ 0 := by rw [hproj] at hne; exact hne
    have hc : (runItems fs L.length 0 L).inc = 0 ∨ (runItems fs L.length 0 L).pages = [] :=
      .inr (by rw [hpg]; exact h0)
    have hskp : (runItems fs L.length 0 L).skp ≠ L.length := by omega
    rw [mergeFiles_eq_fail fs out L hL hc]
    refine ⟨rfl, rfl, ?_⟩
    rw [if_neg hskp]

def fsC7w : FS :=
  ⟨[(pathOf "x.pdf", .corruptPdf), (pathOf "y.png", .badImage),
    (pathOf "z.pdf", .pdfFile false true [])], []⟩

theorem merge_zero_included_fails_witness :
    ((mergeFiles fsC7w (pathOf "o.pdf") [pathOf "x.pdf", pathOf "y.png"]).ok = false ∧
      (mergeFiles fsC7w (pathOf "o.pdf") [pathOf "x.pdf", pathOf "y.png"]).written = none ∧
      (mergeFiles fsC7w (pathOf "o.pdf") [pathOf "x.pdf", pathOf "y.png"]).err
        = some .allSkipped) ∧
    ((mergeFiles fsC7w (pathOf "o.pdf") [pathOf "x.pdf", pathOf "z.pdf"]).ok = false ∧
      (mergeFiles fsC7w (pathOf "o.pdf") [pathOf "x.pdf", pathOf "z.pdf"]).written = none ∧
      (mergeFiles fsC7w (pathOf "o.pdf") [pathOf "x.pdf", pathOf "z.pdf"]).err
        = some .noValidPages) := by
  constructor
  · exact (merge_zero_included_fails fsC7w (pathOf "o.pdf")
      [pathOf "x.pdf", pathOf "y.png"] (by decide)).1 (by decide)
  · exact (merge_zero_included_fails fsC7w (pathOf "o.pdf")
      [pathOf "x.pdf", pathOf "z.pdf"] (by decide)).2 (by decide) (by decide)

/-! ## Claim C2 — encrypted documents in the merge loop -/

/-- Claim C2 (code behavior at the claimed inputs): an encrypted document
item triggers exactly one `decrypt("")` attempt and is then always
skipped — including when the empty password would have decrypted it
(`emptyPwOk` arbitrary) — because line 297 compares the decrypt result
against `PyPDF2.PasswortStates.WRONG_PASSWORD`, an attribute that does
not exist, so the comparison raises `AttributeError` and the handler at
line 301 skips the item.  The claim says such an item is included; the
code never includes it. -/
theorem merge_encrypted_always_skipped (fs : FS) (p : Path) (pwOk : Bool) (pgs : List Nat)
    (hlook : fs.lookupFile p = some (.pdfFile true pwOk pgs))
    (hext : extOf p = pathOf "pdf") :
    processItem fs p = ⟨none, some .decryptError, false, 1⟩ ∧
    (processItem fs p).dec = 1 ∧ validItem fs p = false := by
  have h := processItem_pdf fs p hext
  rw [hlook] at h
  simp at h
  exact ⟨h, by rw [h], by rw [validItem, h]; rfl⟩

def fsC2w : FS := ⟨[(pathOf "locked.pdf", .pdfFile true true [5, 6])], []⟩

theorem merge_encrypted_always_skipped_witness :
    processItem fsC2w (pathOf "locked.pdf") = ⟨none, some .decryptError, false, 1⟩ ∧
    validItem fsC2w (pathOf "locked.pdf") = false := by
  have h := merge_encrypted_always_skipped fsC2w (pathOf "locked.pdf") true [5, 6]
    (by decide) (by decide)
  exact ⟨h.1, h.2.2⟩

/-! ## Claim C8 — image color normalization and conversion -/

/-- `processItem` on an item with an image extension. -/
theorem processItem_image (fs : FS) (p : Path)
    (hext : extOf p = pathOf "jpg" ∨ extOf p = pathOf "jpeg" ∨ extOf p = pathOf "png") :
    processItem fs p
      = match fs.lookupFile p with
        | none => ⟨none, some .fileNotFound, true, 0⟩
        | some (.imageFile m c) =>
          if pdfEncodable (normalizeImageMode m) then
            if ([c] : List Nat) = [] then ⟨none, some .conversionFailure, false, 0⟩
            else ⟨some [c], none, true, 0⟩
          else ⟨none, some .encodeError, true, 0⟩
        | some _ => ⟨none, some .unreadableImage, true, 0⟩ := by
  simp only [processItem, if_pos hext]

/-- Claim C8 (amended): the merge loop converts exactly the modes `RGBA`
and `P` to `RGB` before encoding (other modes — including the
alpha-bearing `LA` and `PA` — pass through unconverted); an image item is
included (with its single validated page) exactly when its normalized
mode is encodable, and is skipped otherwise, with processing continuing;
in the split path, `RGBA` is flattened to `RGB` when saving JPG, so every
image the split path saves as JPG is free of alpha. -/
theorem image_conversion_spec :
    (normalizeImageMode .RGBA = .RGB ∧ normalizeImageMode .P = .RGB) ∧
    (∀ m : ImgMode, m ≠ .RGBA → m ≠ .P → normalizeImageMode m = m) ∧
    (∀ (fs : FS) (p : Path) (m : ImgMode) (c : Nat),
      fs.lookupFile p = some (.imageFile m c) →
      (extOf p = pathOf "jpg" ∨ extOf p = pathOf "jpeg" ∨ extOf p = pathOf "png") →
      processItem fs p
        = if (normalizeImageMode m).hasAlpha
          then ⟨none, some .encodeError, true, 0⟩
          else ⟨some [c], none, true, 0⟩) ∧
    (flattenForSave (pathOf "jpg") .RGBA = .RGB
      ∧ ImgMode.hasAlpha (flattenForSave (pathOf "jpg") .RGBA) = false) ∧
    (∀ (outDir stem : Path) (total i : Nat) (imgs : List (Nat × ImgMode)),
      ∀ x ∈ (saveImages (pathOf "jpg") outDir stem total i imgs).2.1,
        x.2.hasAlpha = false) := by
  refine ⟨⟨rfl, rfl⟩, ?_, ?_, ⟨rfl, rfl⟩, ?_⟩
  · intro m h1 h2
    simp [normalizeImageMode, h1, h2]
  · intro fs p m c hlook hext
    rw [processItem_image fs p hext, hlook]
    simp only [pdfEncodable]
    rcases Bool.eq_false_or_eq_true (normalizeImageMode m).hasAlpha with h | h <;> simp [h]
  · intro outDir stem total i imgs
    induction imgs generalizing i with
    | nil => intro x hx; exact absurd hx (by simp [saveImages])
    | cons pr rest ih =>
      intro x hx
      obtain ⟨pg, m⟩ := pr
      by_cases hc : canSave (pathOf "jpg") (flattenForSave (pathOf "jpg") m) = true
      · simp only [saveImages, if_pos hc, List.mem_cons] at hx
        rcases hx with rfl | hx
        · revert hc
          simp only [canSave, if_pos rfl]
          cases flattenForSave (pathOf "jpg") m <;> decide
        · exact ih (i + 1) x hx
      · simp only [saveImages, if_neg hc] at hx
        exact absurd hx (by simp)

/-- The original claim C8 is false as stated: `LA` is an alpha-bearing
color mode, but the conversion at lines 269-270 tests only for `'RGBA'`
and `'P'`, so an `LA` image is not converted to an opaque model; its
encoding then fails and the item is skipped instead of being appended. -/
def fsC8cex : FS := ⟨[(pathOf "la.png", .imageFile .LA 7)], []⟩

theorem image_conversion_cex :
    ImgMode.hasAlpha .LA = true ∧
    normalizeImageMode .LA = .LA ∧
    (processItem fsC8cex (pathOf "la.png")).pages = none ∧
    (processItem fsC8cex (pathOf "la.png")).reason = some .encodeError := by
  decide

def fsC8w : FS := ⟨[(pathOf "pic.png", .imageFile .P 3)], []⟩

theorem image_conversion_witness :
    normalizeImageMode .RGBA = .RGB ∧
    processItem fsC8w (pathOf "pic.png") = ⟨some [3], none, true, 0⟩ := by
  refine ⟨image_conversion_spec.1.1, ?_⟩
  have h := image_conversion_spec.2.2.1 fsC8w (pathOf "pic.png") .P 3 (by decide)
    (.inr (.inr (by decide)))
  exact h.trans (by decide)

/-! ## Claim C9 — explicit-list resolution does not filter extensions -/

/-- Claim C9 (amended): resolving an explicit list keeps exactly the
existing files, naturally sorted, with no extension filter (line 219);
an existing file whose dot-split extension is unsupported survives
resolution and is only skipped later, item-level, by the merge loop
(lines 319-322). -/
theorem resolve_files_spec (fs : FS) (l : List Path) :
    resolveMerge fs (.files l) = .ok (sortPaths (l.filter (fun f => fs.isFile f))) ∧
    (∀ p, fs.isFile p = true →
      extOf p ≠ pathOf "pdf" → extOf p ≠ pathOf "jpg" →
      extOf p ≠ pathOf "jpeg" → extOf p ≠ pathOf "png" →
      (p ∈ l → p ∈ l.filter (fun f => fs.isFile f)) ∧
      (processItem fs p).reason = some .unsupportedType ∧ validItem fs p = false) := by
  refine ⟨rfl, ?_⟩
  intro p hfile h1 h2 h3 h4
  have hni : ¬(extOf p = pathOf "jpg" ∨ extOf p = pathOf "jpeg" ∨ extOf p = pathOf "png") := by
    rintro (h | h | h) <;> [exact h2 h; exact h3 h; exact h4 h]
  have hpi : processItem fs p = ⟨none, some .unsupportedType, false, 0⟩ := by
    simp only [processItem, if_neg hni, if_neg h1]
  exact ⟨fun hp => List.mem_filter.mpr ⟨hp, hfile⟩, by rw [hpi], by rw [validItem, hpi]; rfl⟩

/-- The original claim C9 is false as stated: `a.txt` exists but its
extension is not one of pdf/jpg/jpeg/png, yet list-mode resolution keeps
it (the filter at line 219 tests only `os.path.isfile`). -/
def fsC9cex : FS := ⟨[(pathOf "a.txt", .otherFile)], []⟩

theorem resolve_files_cex :
    resolveMerge fsC9cex (.files [pathOf "a.txt"]) = .ok [pathOf "a.txt"] ∧
    hasMergeExt (pathOf "a.txt") = false ∧
    fsC9cex.isFile (pathOf "a.txt") = true := by
  decide

theorem resolve_files_witness :
    resolveMerge fsC9cex (.files [pathOf "a.txt", pathOf "missing.pdf"])
      = .ok [pathOf "a.txt"] ∧
    (processItem fsC9cex (pathOf "a.txt")).reason = some .unsupportedType := by
  have h := resolve_files_spec fsC9cex [pathOf "a.txt", pathOf "missing.pdf"]
  refine ⟨h.1.trans (by decide), ?_⟩
  exact (h.2 (pathOf "a.txt") (by decide) (by decide) (by decide) (by decide) (by decide)).2.1

/-! ## Claim C10 — a single unsupported file fails the whole job -/

/-- Claim C10: when the merge input is a single path that is an existing
file (not a directory) with an unsupported extension, `merge_pdfs`
returns failure immediately (lines 235-241): no resolution to an empty
sequence, no items processed (empty progress trace), no output. -/
theorem merge_single_unsupported_fails (fs : FS) (p out : Path)
    (hd : fs.lookupDir p = none) (hf : fs.isFile p = true) (he : hasMergeExt p = false) :
    merge_pdfs fs (.single p) out
      = ⟨false, 0, 0, none, [], some .unsupportedSingleFile, 0⟩ := by
  simp [merge_pdfs, resolveMerge, hd, hf, he]

def fsC10w : FS := ⟨[(pathOf "notes.docx", .otherFile)], []⟩

theorem merge_single_unsupported_fails_witness :
    merge_pdfs fsC10w (.single (pathOf "notes.docx")) (pathOf "o.pdf")
      = ⟨false, 0, 0, none, [], some .unsupportedSingleFile, 0⟩ :=
  merge_single_unsupported_fails fsC10w (pathOf "notes.docx") (pathOf "o.pdf")
    (by decide) (by decide) (by decide)

/-! ## Branch equations for the split engines -/

/-- `split_pdf_to_pdfs` on a readable, parseable, unencrypted source. -/
theorem split_pdfs_eq (fs : FS) (inP outD : Path) (pw : Bool) (pgs : List Nat)
    (hf : fs.lookupFile inP = some (.pdfFile false pw pgs)) :
    split_pdf_to_pdfs fs inP outD
      = ⟨true, splitPages outD (stemOf (basenameC inP)) 0 pgs,
         (0, pgs.length) :: (List.range pgs.length).map (fun i => (i + 1, pgs.length)),
         (splitPages outD (stemOf (basenameC inP)) 0 pgs).map (fun e => basenameC e.1),
         none⟩ := by
  have hfile : fs.isFile inP = true := by rw [FS.isFile, hf]; rfl
  simp only [split_pdf_to_pdfs, hfile, hf, eq_self_iff_true]
  rw [if_neg (not_not_intro trivial)]

theorem splitPages_length (outD stem : Path) :
    ∀ (i : Nat) (pgs : List Nat), (splitPages outD stem i pgs).length = pgs.length := by
  intro i pgs
  induction pgs generalizing i with
  | nil => rfl
  | cons pg rest ih => simp [splitPages, ih]

theorem splitPages_get? (outD stem : Path) :
    ∀ (pgs : List Nat) (i k : Nat) (pg : Nat), pgs[k]? = some pg →
      (splitPages outD stem i pgs)[k]?
        = some (splitName outD stem (i + k + 1) (pathOf ".pdf"), [pg]) := by
  intro pgs
  induction pgs with
  | nil => intro i k pg h; simp at h
  | cons q rest ih =>
    intro i k pg h
    cases k with
    | zero =>
      simp only [List.getElem?_cons_zero, Option.some.injEq] at h
      subst h
      simp only [splitPages, List.getElem?_cons_zero, Option.some.injEq]
    | succ k' =>
      simp only [List.getElem?_cons_succ] at h
      have := ih (i + 1) k' pg h
      simp only [splitPages, List.getElem?_cons_succ]
      rw [this]
      refine congrArg _ (congrArg₂ _ (congrArg₂ _ ?_ rfl) rfl)
      omega

/-- Claim C5: on a readable, parseable source with P pages, split-to-PDFs
succeeds, writes exactly P files, the k-th (0-based) being
`<outDir>/<stem>_page_<k+1>.pdf` containing exactly source page k; it
reports progress `(0,P),(1,P),…,(P,P)` and one status line naming each
created file, in order. -/
theorem split_to_pdfs_spec (fs : FS) (inP outD : Path) (pw : Bool) (pgs : List Nat)
    (hf : fs.lookupFile inP = some (.pdfFile false pw pgs)) :
    (split_pdf_to_pdfs fs inP outD).ok = true ∧
    (split_pdf_to_pdfs fs inP outD).written.length = pgs.length ∧
    (∀ (k pg : Nat), pgs[k]? = some pg →
      (split_pdf_to_pdfs fs inP outD).written[k]?
        = some (splitName outD (stemOf (basenameC inP)) (k + 1) (pathOf ".pdf"), [pg])) ∧
    (split_pdf_to_pdfs fs inP outD).progress
      = (0, pgs.length) :: (List.range pgs.length).map (fun i => (i + 1, pgs.length)) ∧
    (split_pdf_to_pdfs fs inP outD).createdLines
      = (split_pdf_to_pdfs fs inP outD).written.map (fun e => basenameC e.1) := by
  rw [split_pdfs_eq fs inP outD pw pgs hf]
  refine ⟨rfl, splitPages_length outD _ 0 pgs, ?_, rfl, rfl⟩
  intro k pg h
  have := splitPages_get? outD (stemOf (basenameC inP)) pgs 0 k pg h
  rw [this]
  refine congrArg _ (congrArg₂ _ (congrArg₂ _ ?_ rfl) rfl)
  omega

def fsC5w : FS := ⟨[(pathOf "doc.pdf", .pdfFile false true [7, 8])], [(pathOf "out", [])]⟩

theorem split_to_pdfs_spec_witness :
    (split_pdf_to_pdfs fsC5w (pathOf "doc.pdf") (pathOf "out")).ok = true ∧
    (split_pdf_to_pdfs fsC5w (pathOf "doc.pdf") (pathOf "out")).written[0]?
      = some (pathOf "out/doc_page_1.pdf", [7]) ∧
    (split_pdf_to_pdfs fsC5w (pathOf "doc.pdf") (pathOf "out")).written[1]?
      = some (pathOf "out/doc_page_2.pdf", [8]) ∧
    (split_pdf_to_pdfs fsC5w (pathOf "doc.pdf") (pathOf "out")).written.length = 2 := by
  have h := split_to_pdfs_spec fsC5w (pathOf "doc.pdf") (pathOf "out") true [7, 8] (by decide)
  refine ⟨h.1, ?_, ?_, h.2.1.trans (by decide)⟩
  · exact (h.2.2.1 0 7 (by decide)).trans (by decide)
  · exact (h.2.2.1 1 8 (by decide)).trans (by decide)

/-! ## Run-decomposition theory for the natural sort key

The aim is `key_digit_runs_lt`: two filenames that agree except for one
maximal digit run compare by the numeric value of that run.  The route:
`groupRuns` distributes over append up to gluing of boundary runs
(`groupRuns_append`), a glue across a non-digit/digit boundary is plain
concatenation (`glueRuns_of_ne_kind`), and key comparison strips a common
token prefix (`keyLt_append_same`). -/

/-- Concatenate two run decompositions, merging the boundary runs when
they have the same digit-kind (as maximal runs must). -/
def glueRuns : List (Bool × Path) → List (Bool × Path) → List (Bool × Path)
  | [], B => B
  | [(b, run)], (b2, run2) :: B => if b = b2 then (b, run ++ run2) :: B else (b, run) :: (b2, run2) :: B
  | [(b, run)], [] => [(b, run)]
  | a :: A, B => a :: glueRuns A B

theorem glueRuns_nil : ∀ (A : List (Bool × Path)), glueRuns A [] = A
  | [] => rfl
  | [(_, _)] => rfl
  | (_, _) :: (b2, r2) :: A => by
    show _ :: glueRuns ((b2, r2) :: A) [] = _
    rw [glueRuns_nil ((b2, r2) :: A)]

theorem glueRuns_cons_cons (a x : Bool × Path) (A B : List (Bool × Path)) :
    glueRuns (a :: x :: A) B = a :: glueRuns (x :: A) B := by
  obtain ⟨b, run⟩ := a
  obtain ⟨b2, r2⟩ := x
  rfl

theorem runStep_glue (c : Nat) :
    ∀ (A B : List (Bool × Path)), runStep c (glueRuns A B) = glueRuns (runStep c A) B := by
  intro A B
  match A with
  | [] =>
    cases B with
    | nil => rfl
    | cons y B' =>
      obtain ⟨b2, r2⟩ := y
      show runStep c ((b2, r2) :: B') = glueRuns (runStep c []) ((b2, r2) :: B')
      simp only [runStep, glueRuns]
      split_ifs <;> simp_all [glueRuns]
  | [(b, run)] =>
    cases B with
    | nil => rw [glueRuns_nil, glueRuns_nil]
    | cons y B' =>
      obtain ⟨b2, r2⟩ := y
      simp only [runStep, glueRuns]
      split_ifs <;> simp_all [glueRuns]
  | (b, run) :: (b2, r2) :: A' =>
    rw [glueRuns_cons_cons]
    show runStep c ((b, run) :: glueRuns ((b2, r2) :: A') B) = _
    simp only [runStep]
    split_ifs with hc
    · rw [glueRuns_cons_cons]
    · rw [glueRuns_cons_cons, glueRuns_cons_cons]

/-- `groupRuns` of a concatenation glues the two decompositions. -/
theorem groupRuns_append :
    ∀ (u v : Path), groupRuns (u ++ v) = glueRuns (groupRuns u) (groupRuns v) := by
  intro u v
  induction u with
  | nil => rfl
  | cons c u' ih =>
    show runStep c (groupRuns (u' ++ v)) = glueRuns (runStep c (groupRuns u')) (groupRuns v)
    rw [ih, runStep_glue]

/-- A run of characters of one digit-kind is a single run. -/
theorem groupRuns_homogeneous (b : Bool) :
    ∀ (d : Path), d ≠ [] → (∀ c ∈ d, isDigitCode c = b) → groupRuns d = [(b, d)] := by
  intro d
  induction d with
  | nil => intro h; exact absurd rfl h
  | cons c d' ih =>
    intro _ hall
    have hc : isDigitCode c = b := hall c (by simp)
    cases hd' : d' with
    | nil =>
      show runStep c (groupRuns []) = _
      show [(isDigitCode c, [c])] = _
      rw [hc]
    | cons e d'' =>
      have htail := ih (by rw [hd']; intro h; cases h)
        (fun x hx => hall x (List.mem_cons_of_mem _ hx))
      rw [← hd']
      show runStep c (groupRuns d') = _
      rw [htail, runStep, hc, if_pos rfl]

/-- Gluing across a kind boundary is concatenation. -/
theorem glueRuns_of_ne_kind :
    ∀ (A B : List (Bool × Path)),
      (∀ x y, A.getLast? = some x → B.head? = some y → x.1 ≠ y.1) →
      glueRuns A B = A ++ B := by
  intro A
  induction A with
  | nil => intro B _; rfl
  | cons a A' ih =>
    intro B hne
    obtain ⟨b, run⟩ := a
    cases hA' : A' with
    | nil =>
      cases B with
      | nil => rw [glueRuns_nil]; rfl
      | cons y B' =>
        obtain ⟨b2, r2⟩ := y
        have h := hne (b, run) (b2, r2) (by rw [hA']; rfl) rfl
        show (if b = b2 then _ else _) = _
        rw [if_neg h]
        rfl
    | cons x A'' =>
      rw [← hA']
      have hlast : ∀ z, A'.getLast? = some z → ((b, run) :: A').getLast? = some z := by
        intro z hz
        rw [hA'] at hz ⊢
        rw [List.getLast?_cons_cons]
        exact hz
      have := ih B (fun x y hx hy => hne x y (hlast x hx) hy)
      rw [hA'] at this ⊢
      rw [glueRuns_cons_cons, this]
      rfl

/-- `groupRuns` never maps a nonempty string to no runs. -/
theorem groupRuns_ne_nil : ∀ (l : Path), l ≠ [] → groupRuns l ≠ [] := by
  intro l hl
  cases l with
  | nil => exact absurd rfl hl
  | cons c cs =>
    show runStep c (groupRuns cs) ≠ []
    cases groupRuns cs with
    | nil => intro h; cases h
    | cons r rest =>
      obtain ⟨b, run⟩ := r
      show (if isDigitCode c = b then _ else _) ≠ []
      split <;> intro h <;> cases h

/-- The kind of the last run is the digit-kind of the last character. -/
theorem groupRuns_lastKind :
    ∀ (l : Path) (c : Nat), l.getLast? = some c →
      ((groupRuns l).getLast?).map Prod.fst = some (isDigitCode c) := by
  intro l
  induction l with
  | nil => intro c h; cases h
  | cons a l' ih =>
    intro c h
    cases hl' : l' with
    | nil =>
      rw [hl'] at h
      have : a = c := by simpa using h
      subst this
      rfl
    | cons e l'' =>
      have hc : l'.getLast? = some c := by
        rw [hl'] at h ⊢
        rw [List.getLast?_cons_cons] at h
        exact h
      have htail := ih c hc
      rw [← hl']
      show ((runStep a (groupRuns l')).getLast?).map Prod.fst = _
      have hne : groupRuns l' ≠ [] := groupRuns_ne_nil l' (by rw [hl']; intro h0; cases h0)
      cases hG : groupRuns l' with
      | nil => exact absurd hG hne
      | cons r rest =>
        obtain ⟨b, run⟩ := r
        rw [hG] at htail
        show ((if isDigitCode a = b then (b, a :: run) :: rest
            else (isDigitCode a, [a]) :: (b, run) :: rest).getLast?).map Prod.fst = _
        split
        · cases rest with
          | nil => simpa using htail
          | cons r2 rest' =>
            rw [List.getLast?_cons_cons] at htail ⊢
            exact htail
        · rw [List.getLast?_cons_cons]
          exact htail

/-! ## The key of a filename around one digit run -/

/-- `tokenize` of `u ++ d ++ v`, where `d` is a maximal digit run (`u`
empty or ending in a non-digit, `v` digit-free): the tokens of `u`
followed by the numeric token of `d` and the final text token of `v`. -/
theorem tokenize_decomp (u d v : Path)
    (hu : ∀ c, u.getLast? = some c → isDigitCode c = false)
    (hd : d ≠ []) (hdall : ∀ c ∈ d, isDigitCode c = true)
    (hv : ∀ c ∈ v, isDigitCode c = false) :
    tokenize (u ++ d ++ v)
      = (if ((groupRuns u).head?).map Prod.fst = some false then [] else [Tok.text []])
          ++ runToks (groupRuns u)
          ++ [Tok.num (digitsVal d), Tok.text (v.map lowerCode)] := by
  have hgd : groupRuns d = [(true, d)] := groupRuns_homogeneous true d hd hdall
  have hulast : ∀ x y, (groupRuns u).getLast? = some x →
      (((true, d) : Bool × Path) :: groupRuns v).head? = some y → x.1 ≠ y.1 := by
    intro x y hx hy
    have hy' : (true, d) = y := by simpa using hy
    subst hy'
    cases hu0 : u.getLast? with
    | none =>
      have : u = [] := by simpa [List.getLast?_eq_none_iff] using hu0
      subst this
      exact absurd hx (by simp [groupRuns])
    | some c0 =>
      have := groupRuns_lastKind u c0 hu0
      rw [hx] at this
      have hx1 : x.1 = isDigitCode c0 := by simpa using this
      rw [hx1, hu c0 hu0]
      simp
  cases v with
  | nil =>
    have hruns : groupRuns (u ++ d ++ []) = groupRuns u ++ [(true, d)] := by
      rw [List.append_nil, groupRuns_append, hgd]
      exact glueRuns_of_ne_kind _ _ (by simpa using hulast)
    show (if ((groupRuns (u ++ d ++ [])).head?).map Prod.fst = some false then [] else [Tok.text []])
        ++ runToks (groupRuns (u ++ d ++ []))
        ++ (if ((groupRuns (u ++ d ++ [])).getLast?).map Prod.fst = some true
            then [Tok.text []] else []) = _
    rw [hruns]
    have hlastc : ((groupRuns u ++ [((true : Bool), d)]).getLast?).map Prod.fst = some true := by
      rw [List.getLast?_concat]
      rfl
    rw [hlastc]
    have hpad : (if ((groupRuns u ++ [((true : Bool), d)]).head?).map Prod.fst = some false
        then ([] : List Tok) else [Tok.text []])
        = (if ((groupRuns u).head?).map Prod.fst = some false then [] else [Tok.text []]) := by
      cases groupRuns u with
      | nil => simp
      | cons g G' => simp
    rw [hpad]
    simp [runToks, List.map_append, List.append_assoc]
  | cons c0 v' =>
    have hgv : groupRuns (c0 :: v') = [(false, c0 :: v')] := by
      refine groupRuns_homogeneous false (c0 :: v') (by intro h; cases h) ?_
      intro c hc
      exact hv c hc
    have hglue2 : glueRuns (groupRuns d) (groupRuns (c0 :: v'))
        = [(true, d), (false, c0 :: v')] := by
      rw [hgd, hgv]
      show (if (true : Bool) = false then _ else _) = _
      rw [if_neg (by simp)]
    have hruns : groupRuns (u ++ d ++ (c0 :: v'))
        = groupRuns u ++ [(true, d), (false, c0 :: v')] := by
      rw [List.append_assoc, groupRuns_append, groupRuns_append, hglue2, ← hgv]
      refine glueRuns_of_ne_kind _ _ ?_
      intro x y hx hy
      refine hulast x y hx ?_
      rw [hgv]
      exact hy
    show (if ((groupRuns (u ++ d ++ (c0 :: v'))).head?).map Prod.fst = some false
          then [] else [Tok.text []])
        ++ runToks (groupRuns (u ++ d ++ (c0 :: v')))
        ++ (if ((groupRuns (u ++ d ++ (c0 :: v'))).getLast?).map Prod.fst = some true
            then [Tok.text []] else []) = _
    rw [hruns]
    have hlastc : ((groupRuns u ++ [((true : Bool), d), (false, c0 :: v')]).getLast?).map
        Prod.fst = some false := by
      rw [show ((groupRuns u ++ [((true : Bool), d), (false, c0 :: v')]))
          = (groupRuns u ++ [((true : Bool), d)]) ++ [(false, c0 :: v')] from by
            simp [List.append_assoc],
        List.getLast?_concat]
      rfl
    rw [hlastc]
    have hpad : (if ((groupRuns u ++ [((true : Bool), d), (false, c0 :: v')]).head?).map
          Prod.fst = some false
        then ([] : List Tok) else [Tok.text []])
        = (if ((groupRuns u).head?).map Prod.fst = some false then [] else [Tok.text []]) := by
      cases groupRuns u with
      | nil => simp
      | cons g G' => simp
    rw [hpad]
    simp [runToks, List.map_append, List.append_assoc]

theorem valLt_irrefl : ∀ l : Path, valLt l l = false := by
  intro l
  induction l with
  | nil => rfl
  | cons c cs ih => simp [valLt, ih]

theorem tokLt_irrefl : ∀ a : Tok, tokLt a a = false := by
  intro a
  cases a with
  | text s => simp [tokLt, valLt_irrefl]
  | num v => simp [tokLt]

/-- Key comparison ignores a common prefix. -/
theorem keyLt_append_same : ∀ (P X Y : List Tok), keyLt (P ++ X) (P ++ Y) = keyLt X Y := by
  intro P X Y
  induction P with
  | nil => rfl
  | cons a P' ih =>
    show keyLt (a :: (P' ++ X)) (a :: (P' ++ Y)) = _
    simp [keyLt, tokLt_irrefl a, ih]

/-- Two filenames agreeing except in one maximal digit run compare by the
run's numeric value: the heart of claim C4's "maximal digit runs compared
numerically". -/
theorem key_digit_runs_lt (u v d1 d2 : Path)
    (hu : ∀ c, u.getLast? = some c → isDigitCode c = false)
    (hd1 : d1 ≠ []) (hall1 : ∀ c ∈ d1, isDigitCode c = true)
    (hd2 : d2 ≠ []) (hall2 : ∀ c ∈ d2, isDigitCode c = true)
    (hv : ∀ c ∈ v, isDigitCode c = false)
    (hlt : digitsVal d1 < digitsVal d2) :
    keyLt (tokenize (u ++ d1 ++ v)) (tokenize (u ++ d2 ++ v)) = true := by
  rw [tokenize_decomp u d1 v hu hd1 hall1 hv, tokenize_decomp u d2 v hu hd2 hall2 hv]
  rw [keyLt_append_same]
  simp [keyLt, tokLt, hlt]

theorem valLt_asymm : ∀ a b : Path, valLt a b = true → valLt b a = false := by
  intro a
  induction a with
  | nil =>
    intro b h
    cases b with
    | nil => cases h
    | cons x xs => rfl
  | cons x xs ih =>
    intro b h
    cases b with
    | nil => cases h
    | cons y ys =>
      by_cases hxy : x < y
      · have hyx : ¬ y < x := by omega
        simp [valLt, hxy, hyx]
      · by_cases hyx : y < x
        · simp [valLt, hxy, hyx] at h
        · simp only [valLt, if_neg hxy, if_neg hyx] at h ⊢
          exact ih ys h

theorem tokLt_asymm : ∀ a b : Tok, tokLt a b = true → tokLt b a = false := by
  intro a b h
  cases a <;> cases b <;> simp_all [tokLt]
  · exact valLt_asymm _ _ h
  · omega

theorem isDigitCode_lowerCode (c : Nat) : isDigitCode (lowerCode c) = isDigitCode c := by
  unfold lowerCode
  split
  · unfold isDigitCode
    rw [decide_eq_decide]
    omega
  · rfl

theorem lowerCode_idem (c : Nat) : lowerCode (lowerCode c) = lowerCode c := by
  unfold lowerCode
  split
  · rw [if_neg (by omega)]
  · rfl

theorem lowerCode_digit (c : Nat) (h : isDigitCode c = true) : lowerCode c = c := by
  unfold isDigitCode at h
  rw [decide_eq_true_eq] at h
  unfold lowerCode
  rw [if_neg (by omega)]

/-- Every run of `groupRuns` is homogeneous of its labelled kind. -/
theorem groupRuns_kinds :
    ∀ (l : Path) (b : Bool) (run : Path), (b, run) ∈ groupRuns l →
      ∀ c ∈ run, isDigitCode c = b := by
  intro l
  induction l with
  | nil => intro b run h; exact absurd h (List.not_mem_nil _)
  | cons a l' ih =>
    intro b run hmem c hc
    have hmem' : (b, run) ∈ runStep a (groupRuns l') := hmem
    cases hG : groupRuns l' with
    | nil =>
      rw [hG] at hmem'
      have : (b, run) = (isDigitCode a, [a]) := by simpa [runStep] using hmem'
      rw [Prod.mk.injEq] at this
      obtain ⟨rfl, rfl⟩ := this
      have : c = a := by simpa using hc
      subst this
      rfl
    | cons r rest =>
      obtain ⟨b0, r0⟩ := r
      rw [hG] at hmem'
      by_cases ha : isDigitCode a = b0
      · rw [runStep, if_pos ha] at hmem'
        rcases List.mem_cons.mp hmem' with heq | hmem''
        · rw [Prod.mk.injEq] at heq
          obtain ⟨rfl, rfl⟩ := heq
          rcases List.mem_cons.mp hc with rfl | hc'
          · exact ha
          · exact ih b r0 (by rw [hG]; simp) c hc'
        · exact ih b run (by rw [hG]; exact List.mem_cons_of_mem _ hmem'') c hc
      · rw [runStep, if_neg ha] at hmem'
        rcases List.mem_cons.mp hmem' with heq | hmem''
        · rw [Prod.mk.injEq] at heq
          obtain ⟨rfl, rfl⟩ := heq
          have : c = a := by simpa using hc
          subst this
          rfl
        · exact ih b run (by rw [hG]; exact hmem'') c hc

/-- Case folding commutes with run decomposition. -/
theorem groupRuns_map_lower (l : Path) :
    groupRuns (l.map lowerCode)
      = (groupRuns l).map (fun r => (r.1, r.2.map lowerCode)) := by
  induction l with
  | nil => rfl
  | cons a l' ih =>
    show runStep (lowerCode a) (groupRuns (l'.map lowerCode))
        = ((runStep a (groupRuns l')).map (fun r => (r.1, r.2.map lowerCode)))
    rw [ih]
    cases hG : groupRuns l' with
    | nil => simp [runStep, isDigitCode_lowerCode]
    | cons r rest =>
      obtain ⟨b0, r0⟩ := r
      by_cases ha : isDigitCode a = b0
      · simp [runStep, isDigitCode_lowerCode, ha]
      · simp [runStep, isDigitCode_lowerCode, ha]

/-- Claim C4's case-insensitivity: the key of a case-folded string equals
the key of the string itself (text tokens are folded either way, digit
tokens are untouched by folding). -/
theorem tokenize_lower (l : Path) : tokenize (l.map lowerCode) = tokenize l := by
  have hcomp : (Prod.fst ∘ fun r : Bool × Path => (r.1, r.2.map lowerCode)) = Prod.fst :=
    funext fun r => rfl
  have hrun : runToks ((groupRuns l).map (fun r => (r.1, r.2.map lowerCode)))
      = runToks (groupRuns l) := by
    unfold runToks
    rw [List.map_map]
    refine List.map_congr_left ?_
    intro r hr
    obtain ⟨b, run⟩ := r
    cases b with
    | true =>
      have hall := groupRuns_kinds l true run hr
      have hfix : run.map lowerCode = run :=
        (List.map_congr_left (fun c hc => lowerCode_digit c (hall c hc))).trans
          (List.map_id run)
      simp [Function.comp, hfix]
    | false =>
      simp only [Function.comp]
      show Tok.text ((run.map lowerCode).map lowerCode) = Tok.text (run.map lowerCode)
      rw [List.map_map]
      refine congrArg _ (List.map_congr_left ?_)
      intro c _
      exact lowerCode_idem c
  show (if ((groupRuns (l.map lowerCode)).head?).map Prod.fst = some false
      then [] else [Tok.text []])
      ++ runToks (groupRuns (l.map lowerCode))
      ++ (if ((groupRuns (l.map lowerCode)).getLast?).map Prod.fst = some true
          then [Tok.text []] else [])
      = (if ((groupRuns l).head?).map Prod.fst = some false then [] else [Tok.text []])
        ++ runToks (groupRuns l)
        ++ (if ((groupRuns l).getLast?).map Prod.fst = some true then [Tok.text []] else [])
  rw [groupRuns_map_lower, hrun, List.head?_map, List.getLast?_map, Option.map_map,
    Option.map_map, hcomp]

/-- `os.path.basename` ignores everything before the last separator. -/
theorem basenameC_append_sep (a b : Path) : basenameC (a ++ 47 :: b) = basenameC b := by
  unfold basenameC
  rw [List.foldl_append, List.foldl_cons]
  norm_num

theorem basenameC_acc (l : Path) (h : ∀ c ∈ l, c ≠ 47) :
    ∀ acc, l.foldl (fun acc c => if c = 47 then [] else acc ++ [c]) acc = acc ++ l := by
  induction l with
  | nil => intro acc; simp
  | cons c l' ih =>
    intro acc
    rw [List.foldl_cons, if_neg (h c (by simp)),
      ih (fun x hx => h x (List.mem_cons_of_mem _ hx)) (acc ++ [c])]
    simp

theorem basenameC_no_sep (l : Path) (h : ∀ c ∈ l, c ≠ 47) : basenameC l = l := by
  unfold basenameC
  rw [basenameC_acc l h []]
  rfl

/-- Claim C4's "on the base filename": joining a filename under any
directory leaves its natural-sort key unchanged. -/
theorem sortKeyP_joinP (d fn : Path) : sortKeyP (joinP d fn) = sortKeyP fn := by
  show tokenize (basenameC (joinP d fn)) = tokenize (basenameC fn)
  rw [show joinP d fn = d ++ 47 :: fn from by simp [joinP], basenameC_append_sep]

theorem keyLt_asymm : ∀ a b : List Tok, keyLt a b = true → keyLt b a = false := by
  intro a
  induction a with
  | nil =>
    intro b h
    cases b with
    | nil => cases h
    | cons y ys => rfl
  | cons x xs ih =>
    intro b h
    cases b with
    | nil => cases h
    | cons y ys =>
      rcases Bool.eq_false_or_eq_true (tokLt x y) with hxy | hxy
      · have hyx : tokLt y x = false := tokLt_asymm x y hxy
        simp [keyLt, hxy, hyx]
      · rcases Bool.eq_false_or_eq_true (tokLt y x) with hyx | hyx
        · simp [keyLt, hxy, hyx] at h
        · simp only [keyLt, hxy, hyx, Bool.false_eq_true, if_false] at h ⊢
          exact ih ys h

/-! ## Claim C4 — the natural sort key -/

/-- Claim C4: the key compares token-wise with maximal digit runs
compared numerically (two names sharing a prefix that does not end in a
digit and a digit-free suffix order by the value of the differing digit
run), text case-insensitively (case folding the input does not change its
key), on the base filename (joining under a directory does not change the
key); hence the claim's concrete orderings, including
`page_2` before `page_10`. -/
theorem natural_sort_key_spec :
    (∀ (u v d1 d2 : Path),
      (∀ c, u.getLast? = some c → isDigitCode c = false) →
      d1 ≠ [] → (∀ c ∈ d1, isDigitCode c = true) →
      d2 ≠ [] → (∀ c ∈ d2, isDigitCode c = true) →
      (∀ c ∈ v, isDigitCode c = false) →
      digitsVal d1 < digitsVal d2 →
      keyLt (tokenize (u ++ d1 ++ v)) (tokenize (u ++ d2 ++ v)) = true) ∧
    (∀ l : Path, tokenize (l.map lowerCode) = tokenize l) ∧
    (∀ d fn : Path, sortKeyP (joinP d fn) = sortKeyP fn) ∧
    sortPaths [pathOf "a2", pathOf "a10", pathOf "a1"]
      = [pathOf "a1", pathOf "a2", pathOf "a10"] ∧
    sortPaths [pathOf "Img2.png", pathOf "img10.PNG", pathOf "IMG1.png"]
      = [pathOf "IMG1.png", pathOf "Img2.png", pathOf "img10.PNG"] ∧
    keyLt (natural_sort_key "page_2") (natural_sort_key "page_10") = true :=
  ⟨fun u v d1 d2 hu h1 ha1 h2 ha2 hv hlt =>
      key_digit_runs_lt u v d1 d2 hu h1 ha1 h2 ha2 hv hlt,
   tokenize_lower, sortKeyP_joinP, by decide, by decide, by decide⟩

theorem natural_sort_key_spec_witness :
    keyLt (tokenize (pathOf "page_" ++ pathOf "2" ++ []))
        (tokenize (pathOf "page_" ++ pathOf "10" ++ [])) = true ∧
    tokenize ((pathOf "AbC12x").map lowerCode) = tokenize (pathOf "AbC12x") ∧
    sortKeyP (joinP (pathOf "some/dir") (pathOf "x1.pdf")) = sortKeyP (pathOf "x1.pdf") := by
  refine ⟨natural_sort_key_spec.1 (pathOf "page_") [] (pathOf "2") (pathOf "10") ?_
      (by decide) (by decide) (by decide) (by decide) (by decide) (by decide),
    natural_sort_key_spec.2.1 (pathOf "AbC12x"),
    natural_sort_key_spec.2.2.1 (pathOf "some/dir") (pathOf "x1.pdf")⟩
  intro c hc
  rw [show (pathOf "page_").getLast? = some 95 from by decide] at hc
  cases hc
  decide

/-! ## Decimal digit strings -/

theorem decDigits_eq (fuel : Nat) :
    ∀ n : Nat, n ≤ fuel → decDigits fuel n = Nat.digits 10 n := by
  induction fuel with
  | zero =>
    intro n h
    have : n = 0 := by omega
    subst this
    simp [decDigits]
  | succ f ih =>
    intro n h
    cases n with
    | zero => simp [decDigits]
    | succ m =>
      show (m + 1) % 10 :: decDigits f ((m + 1) / 10) = _
      have hdivle : (m + 1) / 10 ≤ f := by
        have := Nat.div_lt_self (show 0 < m + 1 by omega) (show 1 < 10 by omega)
        omega
      rw [ih ((m + 1) / 10) hdivle,
        Nat.digits_def' (by norm_num : (1 : ℕ) < 10) (Nat.succ_pos m)]

theorem natStrCodes_all_digit (n : Nat) : ∀ c ∈ natStrCodes n, isDigitCode c = true := by
  intro c hc
  unfold natStrCodes at hc
  split at hc
  · have : c = 48 := by simpa using hc
    subst this
    decide
  · obtain ⟨d, hd, rfl⟩ := List.mem_map.mp hc
    have hd' : d ∈ Nat.digits 10 n := by
      rw [← decDigits_eq n n (le_refl n)]
      exact List.mem_reverse.mp hd
    have : d < 10 := Nat.digits_lt_base (by norm_num) hd'
    simp [isDigitCode]
    omega

theorem natStrCodes_ne_nil (n : Nat) : natStrCodes n ≠ [] := by
  unfold natStrCodes
  split
  · intro h; cases h
  · intro h
    rw [decDigits_eq n n (le_refl n)] at h
    have hne : Nat.digits 10 n ≠ [] := Nat.digits_ne_nil_iff_ne_zero.mpr (by assumption)
    simp at h
    exact hne h

theorem foldl_reverse_horner (L : List Nat) :
    ∀ acc : Nat, L.reverse.foldl (fun a d => 10 * a + d) acc
      = acc * 10 ^ L.length + Nat.ofDigits 10 L := by
  induction L with
  | nil => intro acc; simp [Nat.ofDigits_nil]
  | cons d L' ih =>
    intro acc
    rw [List.reverse_cons, List.foldl_append, ih acc, List.foldl_cons, List.foldl_nil,
      Nat.ofDigits_cons, List.length_cons]
    ring

/-- The value written by `f"{n}"` reads back as `n`. -/
theorem digitsVal_natStrCodes (n : Nat) : digitsVal (natStrCodes n) = n := by
  unfold natStrCodes
  split
  · subst (by assumption : n = 0)
    rfl
  · unfold digitsVal
    rw [decDigits_eq n n (le_refl n), List.foldl_map]
    have hfun : (fun (a : Nat) (x : Nat) => 10 * a + (x + 48 - 48))
        = fun (a : Nat) (d : Nat) => 10 * a + d := by
      funext a x
      omega
    rw [hfun, foldl_reverse_horner, Nat.ofDigits_digits]
    simp

theorem natStrCodes_injective {i j : Nat} (h : natStrCodes i = natStrCodes j) : i = j := by
  have := congrArg digitsVal h
  rwa [digitsVal_natStrCodes, digitsVal_natStrCodes] at this

/-! ## Claim C6 — structure of the split output filenames -/

/-- The paths the split loop writes, by index (the first components of
`splitPages`). -/
def splitNames (outDir stem : Path) : Nat → Nat → List Path
  | _, 0 => []
  | i, n + 1 => splitName outDir stem (i + 1) (pathOf ".pdf") :: splitNames outDir stem (i + 1) n

theorem splitPages_fst (outD stem : Path) :
    ∀ (l : List Nat) (i : Nat),
      (splitPages outD stem i l).map (fun w => w.1) = splitNames outD stem i l.length := by
  intro l
  induction l with
  | nil => intro i; rfl
  | cons pg rest ih => intro i; simp [splitPages, splitNames, ih]

theorem mem_splitNames (outD stem : Path) :
    ∀ (n i : Nat) (y : Path), y ∈ splitNames outD stem i n →
      ∃ m, i + 1 ≤ m ∧ m ≤ i + n ∧ y = splitName outD stem m (pathOf ".pdf") := by
  intro n
  induction n with
  | zero => intro i y h; cases h
  | succ n' ih =>
    intro i y h
    rcases List.mem_cons.mp h with rfl | h'
    · exact ⟨i + 1, le_refl _, by omega, rfl⟩
    · obtain ⟨m, h1, h2, h3⟩ := ih (i + 1) y h'
      exact ⟨m, by omega, by omega, h3⟩

/-- `os.path.basename` yields no separators. -/
theorem basenameC_sep_free (l : Path) : ∀ c ∈ basenameC l, c ≠ 47 := by
  unfold basenameC
  suffices h : ∀ acc, (∀ c ∈ acc, c ≠ 47) →
      ∀ c ∈ l.foldl (fun acc c => if c = 47 then [] else acc ++ [c]) acc, c ≠ 47 by
    exact h [] (by simp)
  induction l with
  | nil => intro acc hacc c hc; exact hacc c hc
  | cons d l' ih =>
    intro acc hacc c hc
    rw [List.foldl_cons] at hc
    by_cases hd : d = 47
    · rw [if_pos hd] at hc
      exact ih [] (by simp) c hc
    · rw [if_neg hd] at hc
      refine ih (acc ++ [d]) ?_ c hc
      intro x hx
      rcases List.mem_append.mp hx with h1 | h2
      · exact hacc x h1
      · have : x = d := by simpa using h2
        subst this
        exact hd

theorem stemOf_subset (l : Path) : ∀ c ∈ stemOf l, c ∈ l := by
  unfold stemOf
  split
  · exact fun c hc => hc
  · split
    · exact fun c hc => hc
    · exact fun c hc => List.take_subset _ _ hc

theorem digit_ne_sep (c : Nat) (h : isDigitCode c = true) : c ≠ 47 := by
  unfold isDigitCode at h
  rw [decide_eq_true_eq] at h
  omega

/-- The base filename of split page `m`:
`<stem>_page_<m>.pdf`. -/
theorem splitName_eq_joinP (outD stem : Path) (m : Nat) :
    splitName outD stem m (pathOf ".pdf")
      = joinP outD (stem ++ pathOf "_page_" ++ natStrCodes m ++ pathOf ".pdf") := rfl

theorem fname_sep_free (stem : Path) (hstem : ∀ c ∈ stem, c ≠ 47) (m : Nat) :
    ∀ c ∈ stem ++ pathOf "_page_" ++ natStrCodes m ++ pathOf ".pdf", c ≠ 47 := by
  intro c hc
  rcases List.mem_append.mp hc with hc | hc
  · rcases List.mem_append.mp hc with hc | hc
    · rcases List.mem_append.mp hc with hc | hc
      · exact hstem c hc
      · exact (by decide : ∀ c ∈ pathOf "_page_", c ≠ 47) c hc
    · exact digit_ne_sep c (natStrCodes_all_digit m c hc)
  · exact (by decide : ∀ c ∈ pathOf ".pdf", c ≠ 47) c hc

theorem basenameC_splitName (outD stem : Path) (hstem : ∀ c ∈ stem, c ≠ 47) (m : Nat) :
    basenameC (splitName outD stem m (pathOf ".pdf"))
      = stem ++ pathOf "_page_" ++ natStrCodes m ++ pathOf ".pdf" := by
  rw [splitName_eq_joinP,
    show joinP outD (stem ++ pathOf "_page_" ++ natStrCodes m ++ pathOf ".pdf")
      = outD ++ 47 :: (stem ++ pathOf "_page_" ++ natStrCodes m ++ pathOf ".pdf") from by
        simp [joinP],
    basenameC_append_sep]
  exact basenameC_no_sep _ (fname_sep_free stem hstem m)

theorem segFoldl_append_sep (sep : Nat) (a b : Path) :
    (a ++ sep :: b).foldl (fun acc c => if c = sep then [] else acc ++ [c]) []
      = b.foldl (fun acc c => if c = sep then [] else acc ++ [c]) [] := by
  rw [List.foldl_append, List.foldl_cons]
  norm_num

theorem segFoldl_acc (sep : Nat) (l : Path) (h : ∀ c ∈ l, c ≠ sep) :
    ∀ acc, l.foldl (fun acc c => if c = sep then [] else acc ++ [c]) acc = acc ++ l := by
  induction l with
  | nil => intro acc; simp
  | cons c l' ih =>
    intro acc
    rw [List.foldl_cons, if_neg (h c (by simp)),
      ih (fun x hx => h x (List.mem_cons_of_mem _ hx)) (acc ++ [c])]
    simp

/-- The dot-split extension of any path that ends in `.pdf` is `pdf`. -/
theorem extOf_dot_pdf (pre : Path) : extOf (pre ++ pathOf ".pdf") = pathOf "pdf" := by
  unfold extOf
  rw [List.map_append,
    show (pathOf ".pdf").map lowerCode = 46 :: pathOf "pdf" from by decide,
    segFoldl_append_sep]
  rw [segFoldl_acc 46 (pathOf "pdf") (by decide) []]
  rfl

theorem extOf_splitName (outD stem : Path) (m : Nat) :
    extOf (splitName outD stem m (pathOf ".pdf")) = pathOf "pdf" := by
  rw [show splitName outD stem m (pathOf ".pdf")
      = (joinP outD (stem ++ pathOf "_page_" ++ natStrCodes m)) ++ pathOf ".pdf" from by
        simp [splitName, joinP]]
  exact extOf_dot_pdf _

theorem hasMergeExt_dot_pdf (pre : Path) : hasMergeExt (pre ++ pathOf ".pdf") = true := by
  have hsfx : pathOf ".pdf" <:+ (pre ++ pathOf ".pdf").map lowerCode := by
    rw [List.map_append,
      show (pathOf ".pdf").map lowerCode = pathOf ".pdf" from by decide]
    exact List.suffix_append _ _
  simp only [hasMergeExt]
  rw [decide_eq_true hsfx]
  simp

theorem splitName_injective (outD stem : Path) {m1 m2 : Nat}
    (h : splitName outD stem m1 (pathOf ".pdf") = splitName outD stem m2 (pathOf ".pdf")) :
    m1 = m2 := by
  unfold splitName joinP at h
  have h1 := List.append_cancel_left h
  have h2 := List.append_cancel_right h1
  have h3 := List.append_cancel_left h2
  exact natStrCodes_injective h3

theorem splitNames_length (outD stem : Path) :
    ∀ (n i : Nat), (splitNames outD stem i n).length = n := by
  intro n
  induction n with
  | zero => intro i; rfl
  | succ n' ih => intro i; simp [splitNames, ih]

theorem sortKeyP_splitName (outD stem : Path) (hstem : ∀ c ∈ stem, c ≠ 47) (m : Nat) :
    sortKeyP (splitName outD stem m (pathOf ".pdf"))
      = tokenize (stem ++ pathOf "_page_" ++ natStrCodes m ++ pathOf ".pdf") := by
  show tokenize (basenameC _) = _
  rw [basenameC_splitName outD stem hstem m]

/-- Natural-sort comparison of two split output names is numeric
comparison of their page numbers. -/
theorem splitName_keyLt (outD stem : Path) (hstem : ∀ c ∈ stem, c ≠ 47)
    {m1 m2 : Nat} (h : m1 < m2) :
    keyLt (sortKeyP (splitName outD stem m1 (pathOf ".pdf")))
      (sortKeyP (splitName outD stem m2 (pathOf ".pdf"))) = true := by
  rw [sortKeyP_splitName outD stem hstem m1, sortKeyP_splitName outD stem hstem m2]
  refine key_digit_runs_lt (stem ++ pathOf "_page_") (pathOf ".pdf")
    (natStrCodes m1) (natStrCodes m2) ?_ (natStrCodes_ne_nil m1) (natStrCodes_all_digit m1)
    (natStrCodes_ne_nil m2) (natStrCodes_all_digit m2) (by decide) ?_
  · intro c hc
    rw [List.getLast?_append_of_ne_nil _ (by decide : pathOf "_page_" ≠ [])] at hc
    rw [show (pathOf "_page_").getLast? = some 95 from by decide] at hc
    cases hc
    decide
  · rw [digitsVal_natStrCodes, digitsVal_natStrCodes]
    exact h

/-- The split output names come out of the writer loop already in
natural-sort order. -/
theorem splitNames_sorted (outD stem : Path) (hstem : ∀ c ∈ stem, c ≠ 47) :
    ∀ (n i : Nat), List.Sorted natLe (splitNames outD stem i n) := by
  intro n
  induction n with
  | zero => intro i; exact List.sorted_nil
  | succ n' ih =>
    intro i
    rw [show splitNames outD stem i (n' + 1)
        = splitName outD stem (i + 1) (pathOf ".pdf") :: splitNames outD stem (i + 1) n'
      from rfl, List.sorted_cons]
    refine ⟨?_, ih (i + 1)⟩
    intro y hy
    obtain ⟨m, hm1, _, rfl⟩ := mem_splitNames outD stem n' (i + 1) y hy
    show keyLt (sortKeyP (splitName outD stem m (pathOf ".pdf")))
        (sortKeyP (splitName outD stem (i + 1) (pathOf ".pdf"))) = false
    exact keyLt_asymm _ _ (splitName_keyLt outD stem hstem (by omega))

/-- Looking up the k-th split output in the post-split filesystem. -/
theorem lookupFile_split (outD stem : Path) (dirs : List (Path × List Path)) :
    ∀ (l : List Nat) (i k pg : Nat), l[k]? = some pg →
      FS.lookupFile
        ⟨(splitPages outD stem i l).map (fun w => (w.1, Entry.pdfFile false true w.2)), dirs⟩
        (splitName outD stem (i + k + 1) (pathOf ".pdf"))
        = some (.pdfFile false true [pg]) := by
  intro l
  induction l with
  | nil => intro i k pg h; simp at h
  | cons pg0 rest ih =>
    intro i k pg h
    cases k with
    | zero =>
      simp only [List.getElem?_cons_zero, Option.some.injEq] at h
      subst h
      rw [show i + 0 + 1 = i + 1 from by omega]
      unfold FS.lookupFile
      rw [show (⟨(splitPages outD stem i (pg0 :: rest)).map
            (fun w => (w.1, Entry.pdfFile false true w.2)), dirs⟩ : FS).files
          = (splitName outD stem (i + 1) (pathOf ".pdf"), Entry.pdfFile false true [pg0])
            :: (splitPages outD stem (i + 1) rest).map
              (fun w => (w.1, Entry.pdfFile false true w.2)) from rfl]
      rw [List.find?_cons_of_pos _ (by simp)]
      rfl
    | succ k' =>
      simp only [List.getElem?_cons_succ] at h
      have htail := ih (i + 1) k' pg h
      rw [show i + 1 + k' + 1 = i + (k' + 1) + 1 from by omega] at htail
      unfold FS.lookupFile at htail ⊢
      rw [show (⟨(splitPages outD stem i (pg0 :: rest)).map
            (fun w => (w.1, Entry.pdfFile false true w.2)), dirs⟩ : FS).files
          = (splitName outD stem (i + 1) (pathOf ".pdf"), Entry.pdfFile false true [pg0])
            :: (splitPages outD stem (i + 1) rest).map
              (fun w => (w.1, Entry.pdfFile false true w.2)) from rfl]
      rw [List.find?_cons_of_neg _ ?_]
      · exact htail
      · simp only [decide_eq_true_eq]
        intro hcontra
        have := splitName_injective outD stem hcontra
        omega

/-- The page accumulation of the merge loop, item by item. -/
theorem runItems_pages_getD (fs : FS) (t : Nat) :
    ∀ (i : Nat) (L : List Path),
      (runItems fs t i L).pages
        = (L.map (fun p => (processItem fs p).pages.getD [])).flatten := by
  intro i L
  induction L generalizing i with
  | nil => rfl
  | cons p rest ih => simp [runItems, ih]

/-- Mapping per-item page lists over the split names reassembles the
source pages. -/
theorem map_splitNames_getD (outD stem : Path) (f : Path → List Nat) :
    ∀ (l : List Nat) (i : Nat),
      (∀ k pg, l[k]? = some pg → f (splitName outD stem (i + k + 1) (pathOf ".pdf")) = [pg]) →
      ((splitNames outD stem i l.length).map f).flatten = l := by
  intro l
  induction l with
  | nil => intro i _; rfl
  | cons pg rest ih =>
    intro i h
    show (f (splitName outD stem (i + 1) (pathOf ".pdf"))
        :: (splitNames outD stem (i + 1) rest.length).map f).flatten = pg :: rest
    have h0 := h 0 pg (by simp)
    rw [show i + 0 + 1 = i + 1 from by omega] at h0
    rw [List.flatten_cons, h0, ih (i + 1) ?_]
    · rfl
    · intro k pg' hk
      have := h (k + 1) pg' (by simpa using hk)
      rwa [show i + (k + 1) + 1 = i + 1 + k + 1 from by omega] at this

/-- Claim C6 (amended): splitting a readable, parseable document with at
least one page into per-page documents and then merging the split output
directory (the filesystem holding exactly the written one-page files)
yields a merged document whose pages are exactly the source pages in
order — in particular the page count is preserved.  (A zero-page source
splits into zero files and the merge step then fails during resolution
— the empty-fileset check of lines 251-254 — with no output:
`split_merge_round_trip_cex`.) -/
theorem split_merge_round_trip (fs : FS) (inP outD out2 : Path) (pw : Bool) (pgs : List Nat)
    (hf : fs.lookupFile inP = some (.pdfFile false pw pgs)) (hP : 1 ≤ pgs.length) :
    (split_pdf_to_pdfs fs inP outD).ok = true ∧
    (merge_pdfs
        ⟨(split_pdf_to_pdfs fs inP outD).written.map
            (fun w => (w.1, Entry.pdfFile false true w.2)),
          [(outD, (split_pdf_to_pdfs fs inP outD).written.map (fun w => basenameC w.1))]⟩
        (.single outD) out2).ok = true ∧
    (merge_pdfs
        ⟨(split_pdf_to_pdfs fs inP outD).written.map
            (fun w => (w.1, Entry.pdfFile false true w.2)),
          [(outD, (split_pdf_to_pdfs fs inP outD).written.map (fun w => basenameC w.1))]⟩
        (.single outD) out2).written = some (out2, pgs) := by
  have hstem : ∀ c ∈ stemOf (basenameC inP), c ≠ 47 :=
    fun c hc => basenameC_sep_free inP c (stemOf_subset _ c hc)
  rw [split_pdfs_eq fs inP outD pw pgs hf]
  refine ⟨rfl, ?_⟩
  set stem := stemOf (basenameC inP) with hstemdef
  set fs' : FS :=
    ⟨(splitPages outD stem 0 pgs).map (fun w => (w.1, Entry.pdfFile false true w.2)),
     [(outD, (splitPages outD stem 0 pgs).map (fun w => basenameC w.1))]⟩ with hfs'
  set names := splitNames outD stem 0 pgs.length with hnamesdef
  have hnames : (splitPages outD stem 0 pgs).map (fun w => w.1) = names :=
    splitPages_fst outD stem pgs 0
  have hch : (splitPages outD stem 0 pgs).map (fun w => basenameC w.1)
      = names.map basenameC := by
    rw [← hnames, List.map_map]
    rfl
  have hdir : fs'.lookupDir outD = some (names.map basenameC) := by
    rw [hfs']
    unfold FS.lookupDir
    rw [show (⟨(splitPages outD stem 0 pgs).map (fun w => (w.1, Entry.pdfFile false true w.2)),
        [(outD, (splitPages outD stem 0 pgs).map (fun w => basenameC w.1))]⟩ : FS).dirs
        = [(outD, (splitPages outD stem 0 pgs).map (fun w => basenameC w.1))] from rfl]
    rw [List.find?_cons_of_pos _ (by simp)]
    rw [hch]
    rfl
  have hmemname : ∀ y ∈ names, ∃ m, 1 ≤ m ∧ m ≤ pgs.length
      ∧ y = splitName outD stem m (pathOf ".pdf") := by
    intro y hy
    obtain ⟨m, h1, h2, h3⟩ := mem_splitNames outD stem pgs.length 0 y hy
    exact ⟨m, by omega, by omega, h3⟩
  have hfil : (names.map basenameC).filter hasMergeExt = names.map basenameC := by
    rw [List.filter_eq_self]
    intro fn hfn
    obtain ⟨y, hy, rfl⟩ := List.mem_map.mp hfn
    obtain ⟨m, _, _, rfl⟩ := hmemname y hy
    rw [basenameC_splitName outD stem hstem m]
    exact hasMergeExt_dot_pdf _
  have hjoin : (names.map basenameC).map (joinP outD) = names := by
    rw [List.map_map]
    refine (List.map_congr_left ?_).trans (List.map_id names)
    intro y hy
    obtain ⟨m, _, _, rfl⟩ := hmemname y hy
    show joinP outD (basenameC (splitName outD stem m (pathOf ".pdf"))) = _
    rw [basenameC_splitName outD stem hstem m]
    exact (splitName_eq_joinP outD stem m).symm
  have hsorted : sortPaths names = names :=
    List.Sorted.insertionSort_eq (splitNames_sorted outD stem hstem pgs.length 0)
  have hres : resolveMerge fs' (.single outD) = .ok names := by
    simp only [resolveMerge, hdir]
    rw [hfil, hjoin, hsorted]
  have hitem : ∀ k pg, pgs[k]? = some pg →
      processItem fs' (splitName outD stem (k + 1) (pathOf ".pdf"))
        = ⟨some [pg], none, true, 0⟩ := by
    intro k pg hk
    rw [processItem_pdf fs' _ (extOf_splitName outD stem (k + 1))]
    have hlk := lookupFile_split outD stem
      [(outD, (splitPages outD stem 0 pgs).map (fun w => basenameC w.1))] pgs 0 k pg hk
    rw [show (0 : Nat) + k + 1 = k + 1 from by omega] at hlk
    rw [hfs', hlk]
    rfl
  have hvalid : ∀ p ∈ names, validItem fs' p = true := by
    intro p hp
    obtain ⟨m, hm1, hm2, rfl⟩ := hmemname p hp
    have hm0 : m - 1 < pgs.length := by omega
    have hk := hitem (m - 1) _ (List.getElem?_eq_getElem hm0)
    rw [show m - 1 + 1 = m from by omega] at hk
    rw [validItem, hk]
    rfl
  have hpgne : pgs ≠ [] := by
    intro h0
    rw [h0] at hP
    simp at hP
  have hlen : names.length = pgs.length := splitNames_length outD stem pgs.length 0
  have hinc : (runItems fs' names.length 0 names).inc = pgs.length := by
    rw [runItems_inc, List.filter_eq_self.mpr hvalid, hlen]
  have hpages : (runItems fs' names.length 0 names).pages = pgs := by
    rw [runItems_pages_getD, hnamesdef]
    refine map_splitNames_getD outD stem _ pgs 0 ?_
    intro k pg hk
    have hk2 := hitem k pg hk
    rw [show (0 : Nat) + k + 1 = k + 1 from by omega, hk2]
    rfl
  have hcond : ¬((runItems fs' names.length 0 names).inc = 0
      ∨ (runItems fs' names.length 0 names).pages = []) := by
    rintro (h0 | h0)
    · rw [hinc] at h0
      omega
    · rw [hpages] at h0
      exact hpgne h0
  have hnne : names ≠ [] := by
    intro h0
    have h1 := congrArg List.length h0
    rw [hlen] at h1
    simp only [List.length_nil] at h1
    omega
  show (merge_pdfs fs' (.single outD) out2).ok = true
      ∧ (merge_pdfs fs' (.single outD) out2).written = some (out2, pgs)
  unfold merge_pdfs
  rw [hres]
  show (mergeFiles fs' out2 names).ok = true
      ∧ (mergeFiles fs' out2 names).written = some (out2, pgs)
  rw [mergeFiles_eq_ok fs' out2 names hnne hcond]
  exact ⟨rfl, by rw [hpages]⟩

/-- The original claim C6 is false for a zero-page document: the split
succeeds writing nothing, and merging the (empty) output directory fails
at the empty-resolution check of lines 251-254 ("No valid PDF or Image
files found for merging") before any item is processed or any progress
is reported, producing no output document at all rather than a document
with page count 0. -/
def fsC6cex : FS := ⟨[(pathOf "in.pdf", .pdfFile false true [])], []⟩

theorem split_merge_round_trip_cex :
    (split_pdf_to_pdfs fsC6cex (pathOf "in.pdf") (pathOf "outdir")).ok = true ∧
    (split_pdf_to_pdfs fsC6cex (pathOf "in.pdf") (pathOf "outdir")).written = [] ∧
    (merge_pdfs (⟨[], [(pathOf "outdir", [])]⟩ : FS)
        (.single (pathOf "outdir")) (pathOf "m.pdf")).ok = false ∧
    (merge_pdfs (⟨[], [(pathOf "outdir", [])]⟩ : FS)
        (.single (pathOf "outdir")) (pathOf "m.pdf")).written = none ∧
    (merge_pdfs (⟨[], [(pathOf "outdir", [])]⟩ : FS)
        (.single (pathOf "outdir")) (pathOf "m.pdf")).err = some .noFilesFound ∧
    (merge_pdfs (⟨[], [(pathOf "outdir", [])]⟩ : FS)
        (.single (pathOf "outdir")) (pathOf "m.pdf")).progress = [] := by
  decide

def fsC6w : FS := ⟨[(pathOf "Doc7.pdf", .pdfFile false true [3, 1, 4])], []⟩

theorem split_merge_round_trip_witness :
    (split_pdf_to_pdfs fsC6w (pathOf "Doc7.pdf") (pathOf "d")).ok = true ∧
    (merge_pdfs
        ⟨(split_pdf_to_pdfs fsC6w (pathOf "Doc7.pdf") (pathOf "d")).written.map
            (fun w => (w.1, Entry.pdfFile false true w.2)),
          [(pathOf "d", (split_pdf_to_pdfs fsC6w (pathOf "Doc7.pdf") (pathOf "d")).written.map
            (fun w => basenameC w.1))]⟩
        (.single (pathOf "d")) (pathOf "m.pdf")).written
      = some (pathOf "m.pdf", [3, 1, 4]) := by
  have h := split_merge_round_trip fsC6w (pathOf "Doc7.pdf") (pathOf "d") (pathOf "m.pdf")
    true [3, 1, 4] (by decide) (by decide)
  exact ⟨h.1, h.2.2⟩

end PdfUtil
